import Mathlib

/-!
# MWT-Dictionary: the multiway trie of `DictionaryTrie.cpp`

A shallow embedding of `src/DictionaryTrie/DictionaryTrie.{hpp,cpp}`.

* A C++ `string` is a `List Char`; `operator<` / `operator>` on strings is the
  lexicographic order of `List Char`.
* A value of type `MWTNode*` is a `MWTNode`: either `null` or a node that owns
  its 27 children (the heap is an ownership tree, so a pointer is identified
  with the subtree it points to).
* `unsigned int` values (frequencies, `numCompletions`) are naturals; the
  conversions to and from `int` that the source performs implicitly are the
  explicit functions `toInt32` and `toUInt32`.
* Each operation returns `Except Fault _`: `outOfRange` is the C++ exception
  `std::out_of_range` (`string::at`, `string::substr`), `undefinedBehaviour` is
  an access outside `children[27]`, a null dereference or `top`/`pop` on an
  empty priority queue, and `outOfFuel` is the exhaustion of the step budget
  that the embedding gives to the two queue loops.
-/

namespace MWT

/-- The macro `ALPHABET_SIZE`. -/
def ALPHABET_SIZE : Nat := 27

/-- The macro `UNDERSCORE`. -/
def UNDERSCORE : Char := '_'

/-- The macro `SPACE_INDEX`. -/
def SPACE_INDEX : Nat := 1

/-- Abnormal outcomes of the C++ code. -/
inductive Fault where
  | outOfRange : Fault
  | undefinedBehaviour : Fault
  | outOfFuel : Fault
  deriving DecidableEq, Repr

instance instDecidableEqExcept {ε α : Type} [DecidableEq ε] [DecidableEq α] :
    DecidableEq (Except ε α)
  | .ok a, .ok b => if h : a = b then isTrue (by rw [h]) else isFalse (fun h1 => h (by cases h1; rfl))
  | .error a, .error b =>
    if h : a = b then isTrue (by rw [h]) else isFalse (fun h1 => h (by cases h1; rfl))
  | .ok _, .error _ => isFalse (fun h => by cases h)
  | .error _, .ok _ => isFalse (fun h => by cases h)

/-- Conversion `unsigned int -> int` (two's complement, 32 bits). -/
def toInt32 (n : Nat) : Int :=
  if n % 2 ^ 32 < 2 ^ 31 then ((n % 2 ^ 32 : Nat) : Int) else ((n % 2 ^ 32 : Nat) : Int) - 2 ^ 32

/-- Conversion `int -> unsigned int` (reduction modulo `2^32`). -/
def toUInt32 (z : Int) : Nat := (z % 2 ^ 32).toNat

/-- The type `MWTNode*`: `nullptr`, or a node with its `frequency` and its
array `children[27]` of owned child pointers. -/
inductive MWTNode where
  | null : MWTNode
  | node (frequency : Nat) (children : Fin 27 → MWTNode) : MWTNode

/-- The constructor `MWTNode::MWTNode`: frequency 0 and 27 null children. -/
def MWTNode.new : MWTNode := .node 0 (fun _ => .null)

/-- Number of nodes of the subtree a pointer owns. -/
def MWTNode.size : MWTNode → Nat
  | .null => 0
  | .node _ ch => 1 + ((List.finRange 27).map (fun i => (ch i).size)).sum

/-- The class `DictionaryTrie`: its only data member is `root`. -/
structure DictionaryTrie where
  root : MWTNode

/-- The constructor `DictionaryTrie::DictionaryTrie`: `root = new MWTNode()`. -/
def DictionaryTrie.empty : DictionaryTrie := ⟨MWTNode.new⟩

/-- The index computed in `insert`, `find`, `findHelper` and
`findHelperUnderscore`: `(int)c - (int)'a'`, replaced by
`ALPHABET_SIZE - SPACE_INDEX` when the character is a space. -/
def childIndex (c : Char) : Int :=
  if c = ' ' then (ALPHABET_SIZE : Int) - (SPACE_INDEX : Int)
  else (c.toNat : Int) - ('a'.toNat : Int)

/-- The subscript `children[num]`: the slot inside the 27-element array, or
`none` when `num` lies outside it. -/
def slot (num : Int) : Option (Fin 27) :=
  if h : 0 ≤ num ∧ num < 27 then some ⟨num.toNat, by omega⟩ else none

/-- The helper `returnChar`: `"abcdefghijklmnopqrstuvwxyz "[i]`. -/
def returnChar (i : Nat) : Char :=
  ['a', 'b', 'c', 'd', 'e', 'f', 'g', 'h', 'i', 'j', 'k', 'l', 'm', 'n', 'o', 'p', 'q', 'r',
    's', 't', 'u', 'v', 'w', 'x', 'y', 'z', ' '].getD i (Char.ofNat 0)

/-- The loop and the final test of `insert`, from the node `curr` onwards. -/
def insertLoop : List Char → Nat → MWTNode → Except Fault (Bool × MWTNode)
  | _, _, .null => .error .undefinedBehaviour
  | [], freq, .node f ch =>
    if f = 0 then .ok (true, .node (max f freq) ch) else .ok (false, .node f ch)
  | c :: cs, freq, .node f ch =>
    match slot (childIndex c) with
    | none => .error .undefinedBehaviour
    | some i =>
      match insertLoop cs freq (match ch i with
          | .null => MWTNode.new
          | .node f1 ch1 => .node f1 ch1) with
      | .error e => .error e
      | .ok (b, child) => .ok (b, .node f (Function.update ch i child))

/-- The method `DictionaryTrie::insert`: the returned flag and the trie after the call. -/
def DictionaryTrie.insert (t : DictionaryTrie) (word : List Char) (freq : Nat) :
    Except Fault (Bool × DictionaryTrie) :=
  if word = [] then .ok (false, t)
  else
    match insertLoop word freq t.root with
    | .error e => .error e
    | .ok (b, r) => .ok (b, ⟨r⟩)

/-- The loop and the final test of `find`, from the node `curr` onwards. -/
def findLoop : List Char → MWTNode → Except Fault Bool
  | _, .null => .error .undefinedBehaviour
  | [], .node f _ => .ok (decide (f ≠ 0))
  | c :: cs, .node _ ch =>
    match slot (childIndex c) with
    | none => .error .undefinedBehaviour
    | some i =>
      match ch i with
      | .null => .ok false
      | .node f1 ch1 => findLoop cs (.node f1 ch1)

/-- The method `DictionaryTrie::find`. -/
def DictionaryTrie.find (t : DictionaryTrie) (word : List Char) : Except Fault Bool :=
  if word = [] then .ok false else findLoop word t.root

/-- The helper `findHelper`: the node reached by `prefix`, or `nullptr`. -/
def findHelper : List Char → MWTNode → Except Fault MWTNode
  | [], curr => .ok curr
  | _ :: _, .null => .error .undefinedBehaviour
  | c :: cs, .node _ ch =>
    match slot (childIndex c) with
    | none => .error .undefinedBehaviour
    | some i =>
      match ch i with
      | .null => .ok .null
      | .node f1 ch1 => findHelper cs (.node f1 ch1)

/-- The helper `findHelperUnderscore`: the node reached by the characters
before the first underscore. `prefix.at(i)` throws once `i` reaches the size. -/
def findHelperUnderscore : List Char → MWTNode → Except Fault MWTNode
  | [], _ => .error .outOfRange
  | c :: cs, curr =>
    if c = UNDERSCORE then .ok curr
    else
      match curr with
      | .null => .error .undefinedBehaviour
      | .node _ ch =>
        match slot (childIndex c) with
        | none => .error .undefinedBehaviour
        | some i =>
          match ch i with
          | .null => .ok .null
          | .node f1 ch1 => findHelperUnderscore cs (.node f1 ch1)

/-- The functor `CustomComparator` on `pair<string, int>`. -/
def CustomComparator (P1 P2 : List Char × Int) : Bool :=
  if P1.2 = P2.2 then decide (P1.1 > P2.1) else decide (P1.2 < P2.2)

/-- The contents of a `std::priority_queue<pair<string,int>, vector<...>, CustomComparator>`.
The standard container is embedded by its contract: `top` is a greatest
element under the comparator and `pop` removes it. -/
abbrev PriorityQueue := List (List Char × Int)

/-- The call `pq.push(x)`. -/
def PriorityQueue.push (pq : PriorityQueue) (x : List Char × Int) : PriorityQueue := x :: pq

/-- The call `pq.top()`: an element that `CustomComparator` puts below no other
element (`none` on an empty queue, where the C++ call is undefined). -/
def PriorityQueue.top : PriorityQueue → Option (List Char × Int)
  | [] => none
  | x :: xs =>
    match PriorityQueue.top xs with
    | none => some x
    | some y => if CustomComparator x y then some y else some x

/-- The queue without the first occurrence of `m`. -/
def PriorityQueue.remove (m : List Char × Int) : PriorityQueue → PriorityQueue
  | [] => []
  | x :: xs => if x = m then xs else x :: PriorityQueue.remove m xs

/-- The call `pq.pop()`: removes one occurrence of the element `top` returns. -/
def PriorityQueue.pop (pq : PriorityQueue) : PriorityQueue :=
  match PriorityQueue.top pq with
  | none => pq
  | some m => PriorityQueue.remove m pq

/-- The inner `for` loop of the breadth-first search: the non-null children
of a node, each with the string of the node extended by `returnChar(i)`. -/
def pushChildren (s : List Char) (ch : Fin 27 → MWTNode) : List (List Char × MWTNode) :=
  (List.finRange 27).filterMap (fun i =>
    match ch i with
    | .null => none
    | .node f1 ch1 => some (s ++ [returnChar i.val], .node f1 ch1))

/-- The `while` loop "BFS DOWN" shared by `predictCompletions` and
`predictUnderscores`: `queue` is the FIFO queue, `pq` the priority queue. The
first argument bounds the number of iterations. -/
def bfs : Nat → List (List Char × MWTNode) → PriorityQueue → Except Fault PriorityQueue
  | _, [], pq => .ok pq
  | 0, _ :: _, _ => .error .outOfFuel
  | _ + 1, (_, .null) :: _, _ => .error .undefinedBehaviour
  | fuel + 1, (s, .node f ch) :: rest, pq =>
    bfs fuel (rest ++ pushChildren s ch)
      (if f > 0 then PriorityQueue.push pq (s, toInt32 f) else pq)

/-- The helper `checkSize` on its two `int` parameters. -/
def checkSize (numCompletions returnSize : Int) : Int :=
  if returnSize < numCompletions then returnSize else numCompletions

/-- The last loop of `predictCompletions`: `n` times `top`, `pop`, `push_back`. -/
def popLoop : Nat → PriorityQueue → List (List Char) → Except Fault (List (List Char))
  | 0, _, possibleWords => .ok possibleWords
  | n + 1, pq, possibleWords =>
    match PriorityQueue.top pq with
    | none => .error .undefinedBehaviour
    | some returnWord => popLoop n (PriorityQueue.pop pq) (possibleWords ++ [returnWord.1])

/-- The method `DictionaryTrie::predictCompletions`. -/
def DictionaryTrie.predictCompletions (t : DictionaryTrie) (pfx : List Char)
    (numCompletions : Nat) : Except Fault (List (List Char)) :=
  if pfx.length = 0 ∨ numCompletions ≤ 0 then .ok []
  else
    match findHelper pfx t.root with
    | .error e => .error e
    | .ok .null => .ok []
    | .ok (.node f ch) =>
      match bfs (MWTNode.size (.node f ch)) [(pfx, .node f ch)] [] with
      | .error e => .error e
      | .ok pq =>
        popLoop (toUInt32 (checkSize (toInt32 numCompletions) (toInt32 pq.length))) pq []

/-- The call `s.substr(pos, len)`: throws `std::out_of_range` when `pos > s.size()`. -/
def substr (s : List Char) (pos len : Nat) : Except Fault (List Char) :=
  if pos > s.length then .error .outOfRange else .ok ((s.drop pos).take len)

/-- The inner `for` loop of the filter of `predictUnderscores`, with `n`
iterations left and loop variable `i`. -/
def compareLoop (pattern word : List Char) :
    Nat → Nat → List (List Char) → Except Fault (List (List Char))
  | 0, _, wildCard => .ok wildCard
  | n + 1, i, wildCard =>
    match substr pattern (i + 1) pattern.length with
    | .error e => .error e
    | .ok q =>
      match substr word (i + 1) word.length with
      | .error e => .error e
      | .ok r => compareLoop pattern word n (i + 1) (if q = r then wildCard ++ [word] else wildCard)

/-- The outer `for (k = 0; k < pq.size(); k++)` loop of `predictUnderscores`.
The first argument bounds the number of iterations. -/
def filterLoop (pattern : List Char) :
    Nat → Nat → PriorityQueue → List (List Char) → Except Fault (List (List Char))
  | fuel, k, pq, wildCard =>
    if k < pq.length then
      match fuel with
      | 0 => .error .outOfFuel
      | fuel1 + 1 =>
        match PriorityQueue.top pq with
        | none => .error .undefinedBehaviour
        | some possibleWord =>
          match compareLoop pattern possibleWord.1 pattern.length 0 wildCard with
          | .error e => .error e
          | .ok wildCard1 => filterLoop pattern fuel1 (k + 1) (PriorityQueue.pop pq) wildCard1
    else .ok wildCard

/-- The method `DictionaryTrie::predictUnderscores`. -/
def DictionaryTrie.predictUnderscores (t : DictionaryTrie) (pattern : List Char)
    (numCompletions : Nat) : Except Fault (List (List Char)) :=
  if numCompletions ≤ 0 ∨ pattern.length = 0 then .ok []
  else
    match findHelperUnderscore pattern t.root with
    | .error e => .error e
    | .ok .null => .ok []
    | .ok (.node f ch) =>
      match bfs (MWTNode.size (.node f ch)) [([], .node f ch)] [] with
      | .error e => .error e
      | .ok pq => filterLoop pattern pq.length 0 pq []

/-- The trie after a sequence of `insert` calls, starting from trie `t`
(the loop of a caller that ignores the returned flags). -/
def insertAll : List (List Char × Nat) → DictionaryTrie → Except Fault DictionaryTrie
  | [], t => .ok t
  | (w, f) :: ops, t =>
    match t.insert w f with
    | .error e => .error e
    | .ok (_, t1) => insertAll ops t1

/-- The trie built from the empty trie by a sequence of `insert` calls. -/
def build (ops : List (List Char × Nat)) : Except Fault DictionaryTrie :=
  insertAll ops DictionaryTrie.empty

/-! ### Vocabulary of the specification -/

/-- The alphabet of the specification: the lowercase letters `a`..`z`
(codes 97..122) and the space. -/
def isAlphabetChar (c : Char) : Bool :=
  c == ' ' || (decide (97 ≤ c.toNat) && decide (c.toNat ≤ 122))

/-- A string all of whose characters are in the alphabet. -/
def overAlphabet (w : List Char) : Prop := ∀ c ∈ w, isAlphabetChar c = true

instance instDecidableOverAlphabet (w : List Char) : Decidable (overAlphabet w) := by
  unfold overAlphabet; infer_instance

/-- The child index of a symbol in the data model of the specification:
index 0..25 for `a`..`z`, index 26 for the space, none for any other character. -/
def symbolIndex (c : Char) : Option (Fin 27) :=
  if c = ' ' then some 26
  else if h : 97 ≤ c.toNat ∧ c.toNat ≤ 122 then some ⟨c.toNat - 97, by omega⟩
  else none

/-- The field `frequency` of the node a pointer points to (0 for `nullptr`). -/
def MWTNode.frequency : MWTNode → Nat
  | .null => 0
  | .node f _ => f

/-- The node at the end of the path that spells `w` from a node, following for
each symbol the child of its index; `null` when no such path exists. -/
def MWTNode.walk : List Char → MWTNode → MWTNode
  | [], n => n
  | _ :: _, .null => .null
  | c :: cs, .node _ ch =>
    match symbolIndex c with
    | none => .null
    | some i => MWTNode.walk cs (ch i)

/-- The frequency stored for `w`: the frequency of the terminal node of the
path spelling `w` from the root, 0 when there is no such path. -/
def DictionaryTrie.frequency (t : DictionaryTrie) (w : List Char) : Nat :=
  (t.root.walk w).frequency

/-- A stored word: its terminal node has a nonzero frequency. -/
def DictionaryTrie.stored (t : DictionaryTrie) (w : List Char) : Prop :=
  0 < t.frequency w

instance instDecidableStored (t : DictionaryTrie) (w : List Char) : Decidable (t.stored w) := by
  unfold DictionaryTrie.stored; infer_instance

/-- The stored words below a node: each word node of the subtree, as the
string spelled from the node down to it, with its frequency. -/
def MWTNode.words : MWTNode → List (List Char × Nat)
  | .null => []
  | .node f ch =>
    (if 0 < f then [([], f)] else []) ++
      (List.finRange 27).flatMap (fun i =>
        ((ch i).words).map (fun x => (returnChar i.val :: x.1, x.2)))

/-- The candidates `(string, int)` of the subtree of `n` when `n` is reached
with the string `s`. -/
def candidates (s : List Char) (n : MWTNode) : List (List Char × Int) :=
  n.words.map (fun x => (s ++ x.1, toInt32 x.2))

/-- Total number of nodes below the entries of the FIFO queue. -/
def queueSize (q : List (List Char × MWTNode)) : Nat := (q.map (fun x => x.2.size)).sum

/-- The ranking of the specification: `u` comes before `v` when its frequency
is higher, or the frequencies are equal and `u` is the smaller string. -/
def DictionaryTrie.ranksBefore (t : DictionaryTrie) (u v : List Char) : Prop :=
  t.frequency v < t.frequency u ∨ (t.frequency u = t.frequency v ∧ u < v)

/-- Whether a path spelling `p` exists from the root. -/
def DictionaryTrie.hasPath (t : DictionaryTrie) (p : List Char) : Bool :=
  match t.root.walk p with
  | .null => false
  | .node _ _ => true

/-- The list `L` is the list of all stored words that start with `p`, ordered
by frequency descending and, on equal frequency, by string ascending. -/
def DictionaryTrie.isRankedCompletions (t : DictionaryTrie) (p : List Char)
    (L : List (List Char)) : Prop :=
  (∀ w, w ∈ L ↔ (p <+: w ∧ t.stored w)) ∧ L.Pairwise t.ranksBefore

/-- The literal prefix of a pattern: its characters before the first wildcard
(the whole pattern when it has no wildcard). -/
def literalPrefix (pattern : List Char) : List Char :=
  pattern.takeWhile (fun c => decide (c ≠ UNDERSCORE))

/-- The word with every '{' replaced by a space. -/
def braceToSpace (w : List Char) : List Char := w.map (fun c => if c = '{' then ' ' else c)

/-- The trie of the first example of the specification: "cat" 5, "car" 3 and
"cap" 3 inserted in the empty trie. -/
def exampleTrie : DictionaryTrie :=
  match build [(['c', 'a', 't'], 5), (['c', 'a', 'r'], 3), (['c', 'a', 'p'], 3)] with
  | .ok t => t
  | .error _ => DictionaryTrie.empty

end MWT

namespace MWT

/-! ### Characters and child indices -/

theorem symbolIndex_returnChar (i : Fin 27) : symbolIndex (returnChar i.val) = some i := by
  revert i; decide

theorem returnChar_of_symbolIndex {c : Char} {i : Fin 27} (h : symbolIndex c = some i) :
    returnChar i.val = c := by
  unfold symbolIndex at h
  split at h
  · next hc => cases h; rw [hc]; rfl
  · split at h
    · next hr =>
      cases h
      have hc : Char.ofNat c.toNat = c := Char.ofNat_toNat c
      obtain ⟨h1, h2⟩ := hr
      show returnChar (c.toNat - 97) = c
      generalize c.toNat = n at hc h1 h2
      subst hc
      interval_cases n <;> rfl
    · cases h

theorem symbolIndex_isSome_iff (c : Char) :
    (symbolIndex c).isSome = isAlphabetChar c := by
  unfold symbolIndex isAlphabetChar
  by_cases hc : c = ' '
  · simp [hc]
  · by_cases hr : 97 ≤ c.toNat ∧ c.toNat ≤ 122
    · simp [hc, hr]
    · simp only [hc, hr, if_false, dif_neg, not_false_eq_true, Option.isSome_none]
      simp only [not_and_or, not_le] at hr
      rcases hr with hr | hr <;> simp [hc, hr]

theorem slot_childIndex {c : Char} (h : isAlphabetChar c = true) :
    slot (childIndex c) = symbolIndex c := by
  unfold isAlphabetChar at h
  unfold slot childIndex symbolIndex ALPHABET_SIZE SPACE_INDEX
  by_cases hc : c = ' '
  · subst hc; decide
  · have hr : 97 ≤ c.toNat ∧ c.toNat ≤ 122 := by
      simpa [hc] using h
    have ha : ('a'.toNat : Int) = 97 := by decide
    simp only [hc, if_false, ha, dif_pos hr]
    have h3 : (0 : Int) ≤ (c.toNat : Int) - 97 ∧ (c.toNat : Int) - 97 < 27 := by omega
    rw [dif_pos h3]
    congr 1
    apply Fin.ext
    show ((c.toNat : Int) - 97).toNat = c.toNat - 97
    omega

theorem symbolIndex_ne_none {c : Char} (h : isAlphabetChar c = true) :
    ∃ i, symbolIndex c = some i := by
  have := symbolIndex_isSome_iff c
  rw [h] at this
  exact Option.isSome_iff_exists.mp this

/-! ### Walking a path -/

theorem walk_null (w : List Char) : MWTNode.walk w .null = .null := by
  cases w <;> rfl

theorem frequency_walk_new (w : List Char) : (MWTNode.walk w MWTNode.new).frequency = 0 := by
  cases w with
  | nil => rfl
  | cons c cs =>
    unfold MWTNode.new
    simp only [MWTNode.walk]
    cases symbolIndex c with
    | none => rfl
    | some i => simp only [walk_null]; rfl

theorem walk_append (p s : List Char) (n : MWTNode) :
    MWTNode.walk (p ++ s) n = MWTNode.walk s (MWTNode.walk p n) := by
  induction p generalizing n with
  | nil => rfl
  | cons c cs ih =>
    cases n with
    | null => simp [MWTNode.walk, walk_null]
    | node f ch =>
      simp only [List.cons_append, MWTNode.walk]
      cases symbolIndex c with
      | none => simp [walk_null]
      | some i => exact ih (ch i)

theorem overAlphabet_cons {c : Char} {cs : List Char} (h : overAlphabet (c :: cs)) :
    isAlphabetChar c = true ∧ overAlphabet cs :=
  ⟨h c (List.mem_cons_self c cs), fun d hd => h d (List.mem_cons_of_mem c hd)⟩

theorem walk_ne_null_overAlphabet {w : List Char} {n : MWTNode}
    (h : MWTNode.walk w n ≠ .null) : overAlphabet w := by
  induction w generalizing n with
  | nil => intro c hc; cases hc
  | cons c cs ih =>
    cases n with
    | null => exact absurd rfl h
    | node f ch =>
      simp only [MWTNode.walk] at h
      cases hs : symbolIndex c with
      | none => rw [hs] at h; exact absurd rfl h
      | some i =>
        rw [hs] at h
        have hc : isAlphabetChar c = true := by
          rw [← symbolIndex_isSome_iff, hs]; rfl
        intro d hd
        rcases List.mem_cons.mp hd with rfl | hd
        · exact hc
        · exact ih h d hd

/-! ### `findHelper`, `find` and `insert` on words over the alphabet -/

theorem findHelper_eq_walk (w : List Char) (f : Nat) (ch : Fin 27 → MWTNode)
    (hw : overAlphabet w) : findHelper w (.node f ch) = .ok (MWTNode.walk w (.node f ch)) := by
  induction w generalizing f ch with
  | nil => rfl
  | cons c cs ih =>
    obtain ⟨hc, hcs⟩ := overAlphabet_cons hw
    obtain ⟨i, hi⟩ := symbolIndex_ne_none hc
    simp only [findHelper, MWTNode.walk, slot_childIndex hc, hi]
    cases hch : ch i with
    | null => simp [walk_null]
    | node f1 ch1 => exact ih f1 ch1 hcs

theorem findLoop_eq_walk (w : List Char) (f : Nat) (ch : Fin 27 → MWTNode)
    (hw : overAlphabet w) :
    findLoop w (.node f ch) = .ok (decide ((MWTNode.walk w (.node f ch)).frequency ≠ 0)) := by
  induction w generalizing f ch with
  | nil => rfl
  | cons c cs ih =>
    obtain ⟨hc, hcs⟩ := overAlphabet_cons hw
    obtain ⟨i, hi⟩ := symbolIndex_ne_none hc
    simp only [findLoop, MWTNode.walk, slot_childIndex hc, hi]
    cases hch : ch i with
    | null => simp [walk_null, MWTNode.frequency]
    | node f1 ch1 => exact ih f1 ch1 hcs

theorem insertLoop_stored (w : List Char) (freq f : Nat) (ch : Fin 27 → MWTNode)
    (h : (MWTNode.walk w (.node f ch)).frequency ≠ 0) :
    insertLoop w freq (.node f ch) = .ok (false, .node f ch) := by
  induction w generalizing f ch with
  | nil =>
    have hf : f ≠ 0 := h
    simp [insertLoop, hf]
  | cons c cs ih =>
    cases hs : symbolIndex c with
    | none => simp only [MWTNode.walk, hs] at h; exact absurd rfl h
    | some i =>
      simp only [MWTNode.walk, hs] at h
      have hc : isAlphabetChar c = true := by
        rw [← symbolIndex_isSome_iff, hs]; rfl
      cases hch : ch i with
      | null => rw [hch, walk_null] at h; exact absurd rfl h
      | node f1 ch1 =>
        rw [hch] at h
        simp only [insertLoop, slot_childIndex hc, hs, hch, ih f1 ch1 h]
        rw [← hch, Function.update_eq_self]

theorem insertLoop_spec (w : List Char) (freq f : Nat) (ch : Fin 27 → MWTNode)
    (hw : overAlphabet w) :
    ∃ f1 ch1, insertLoop w freq (.node f ch)
        = .ok (decide ((MWTNode.walk w (.node f ch)).frequency = 0), .node f1 ch1) ∧
      ∀ x, (MWTNode.walk x (.node f1 ch1)).frequency
        = if x = w ∧ (MWTNode.walk w (.node f ch)).frequency = 0 then freq
          else (MWTNode.walk x (.node f ch)).frequency := by
  induction w generalizing f ch with
  | nil =>
    by_cases hf : f = 0
    · refine ⟨max f freq, ch, by simp [insertLoop, hf, MWTNode.walk, MWTNode.frequency], ?_⟩
      intro x
      cases x with
      | nil => simp [MWTNode.walk, MWTNode.frequency, hf]
      | cons d ds => simp [MWTNode.walk]
    · refine ⟨f, ch, by simp [insertLoop, hf, MWTNode.walk, MWTNode.frequency], ?_⟩
      intro x
      simp [MWTNode.walk, MWTNode.frequency, hf]
  | cons c cs ih =>
    obtain ⟨hc, hcs⟩ := overAlphabet_cons hw
    obtain ⟨i, hi⟩ := symbolIndex_ne_none hc
    -- the child the loop descends into, created when absent
    have key : ∀ child : MWTNode, (∀ y, (MWTNode.walk y child).frequency
          = (MWTNode.walk y (ch i)).frequency) →
        ∀ g1 c1, (∀ x, (MWTNode.walk x (.node g1 c1)).frequency
          = if x = cs ∧ (MWTNode.walk cs child).frequency = 0 then freq
            else (MWTNode.walk x child).frequency) →
        ∀ x, (MWTNode.walk x (.node f (Function.update ch i (.node g1 c1)))).frequency
          = if x = c :: cs ∧ (MWTNode.walk (c :: cs) (.node f ch)).frequency = 0 then freq
            else (MWTNode.walk x (.node f ch)).frequency := by
      intro child hchild g1 c1 hspec x
      cases x with
      | nil => simp [MWTNode.walk, MWTNode.frequency]
      | cons d ds =>
        simp only [MWTNode.walk, hi]
        cases hd : symbolIndex d with
        | none =>
          have hne : d ≠ c := by
            intro hdc; rw [hdc, hi] at hd; cases hd
          simp [hne]
        | some j =>
          by_cases hji : j = i
          · subst hji
            have hdc : d = c := by
              rw [← returnChar_of_symbolIndex hd, ← returnChar_of_symbolIndex hi]
            subst hdc
            simp only [Function.update_same, hspec ds, hchild, List.cons.injEq, true_and]
          · have hne : d ≠ c := by
              intro hdc; rw [hdc, hi] at hd; exact hji (Option.some.inj hd).symm
            simp [Function.update_noteq hji, hne]
    cases hch : ch i with
    | null =>
      obtain ⟨g1, c1, hins, hspec⟩ := ih 0 (fun _ => .null) hcs
      refine ⟨f, Function.update ch i (.node g1 c1), ?_, ?_⟩
      · simp only [insertLoop, slot_childIndex hc, hi, hch, MWTNode.walk, walk_null]
        have h0 : (MWTNode.walk cs (.node 0 fun _ => .null)).frequency = 0 :=
          frequency_walk_new cs
        rw [show MWTNode.new = .node 0 (fun _ => .null) from rfl, hins]
        rw [h0]; rfl
      · refine key (.node 0 fun _ => .null) ?_ g1 c1 hspec
        intro y; rw [hch, walk_null]; exact frequency_walk_new y
    | node f2 ch2 =>
      obtain ⟨g1, c1, hins, hspec⟩ := ih f2 ch2 hcs
      refine ⟨f, Function.update ch i (.node g1 c1), ?_, ?_⟩
      · simp only [insertLoop, slot_childIndex hc, hi, hch, MWTNode.walk, hins]
      · refine key (.node f2 ch2) ?_ g1 c1 hspec
        intro y; rw [hch]

theorem root_eq_node {t : DictionaryTrie} (ht : t.root ≠ .null) :
    ∃ f ch, t.root = .node f ch := by
  cases h : t.root with
  | null => exact absurd h ht
  | node f ch => exact ⟨f, ch, rfl⟩

theorem insert_spec (t : DictionaryTrie) (w : List Char) (freq : Nat)
    (ht : t.root ≠ .null) (hw : overAlphabet w) :
    ∃ t1, t.insert w freq = .ok (decide (w ≠ [] ∧ t.frequency w = 0), t1) ∧
      t1.root ≠ .null ∧
      ∀ x, t1.frequency x
        = if x = w ∧ w ≠ [] ∧ t.frequency w = 0 then freq else t.frequency x := by
  obtain ⟨f, ch, hr⟩ := root_eq_node ht
  by_cases hne : w = []
  · refine ⟨t, by simp [DictionaryTrie.insert, hne], ht, ?_⟩
    intro x; simp [hne]
  · obtain ⟨f1, ch1, hins, hspec⟩ := insertLoop_spec w freq f ch hw
    refine ⟨⟨.node f1 ch1⟩, ?_, by simp, ?_⟩
    · simp only [DictionaryTrie.insert, hne, if_false, hr, hins, DictionaryTrie.frequency]
      simp [hne]
    · intro x
      simp only [DictionaryTrie.frequency, hr, hspec x]
      simp [hne]

theorem insertAll_spec (ops : List (List Char × Nat)) (t0 : DictionaryTrie)
    (ht : t0.root ≠ .null) (hops : ∀ op ∈ ops, overAlphabet op.1) :
    ∃ t, insertAll ops t0 = .ok t ∧ t.root ≠ .null ∧
      (∀ x, t.frequency x = t0.frequency x ∨ (x ≠ [] ∧ (x, t.frequency x) ∈ ops)) ∧
      (∀ x f, x ≠ [] → (x, f) ∈ ops → 0 < f → 0 < t.frequency x) ∧
      (∀ x, 0 < t0.frequency x → t.frequency x = t0.frequency x) := by
  induction ops generalizing t0 with
  | nil =>
    refine ⟨t0, rfl, ht, fun x => Or.inl rfl, ?_, fun x _ => rfl⟩
    intro x f _ hmem; cases hmem
  | cons op rest ih =>
    obtain ⟨w, f0⟩ := op
    have hw : overAlphabet w := hops (w, f0) (List.mem_cons_self _ _)
    obtain ⟨t1, hins, ht1, hfreq⟩ := insert_spec t0 w f0 ht hw
    obtain ⟨t, hall, htn, ha, hb, hc⟩ :=
      ih t1 ht1 (fun op hop => hops op (List.mem_cons_of_mem _ hop))
    have hkeep : ∀ x, 0 < t0.frequency x → t1.frequency x = t0.frequency x := by
      intro x hx
      rw [hfreq x]
      have : ¬ (x = w ∧ w ≠ [] ∧ t0.frequency w = 0) := by
        rintro ⟨rfl, _, h0⟩; omega
      simp [this]
    refine ⟨t, by simp only [insertAll, hins, hall], htn, ?_, ?_, ?_⟩
    · intro x
      rcases ha x with h | ⟨hne, hmem⟩
      · rw [h, hfreq x]
        by_cases hcond : x = w ∧ w ≠ [] ∧ t0.frequency w = 0
        · right
          obtain ⟨rfl, hne, _⟩ := hcond
          refine ⟨hne, ?_⟩
          rw [if_pos ⟨rfl, hne, by assumption⟩]
          exact List.mem_cons_self _ _
        · left; rw [if_neg hcond]
      · exact Or.inr ⟨hne, List.mem_cons_of_mem _ hmem⟩
    · intro x f hne hmem hf
      rcases List.mem_cons.mp hmem with heq | hmem
      · have hxw : x = w := congrArg Prod.fst heq
        have hff : f = f0 := congrArg Prod.snd heq
        subst hxw; subst hff
        have h1 : 0 < t1.frequency x := by
          rw [hfreq x]
          by_cases h0 : t0.frequency x = 0
          · simp [hne, h0, hf]
          · simp [h0]; omega
        rw [hc x h1]; exact h1
      · exact hb x f hne hmem hf
    · intro x hx
      have h1 := hkeep x hx
      rw [hc x (by omega), h1]

theorem empty_frequency (x : List Char) : DictionaryTrie.empty.frequency x = 0 :=
  frequency_walk_new x

theorem build_spec (ops : List (List Char × Nat)) (hops : ∀ op ∈ ops, overAlphabet op.1) :
    ∃ t, build ops = .ok t ∧ t.root ≠ .null ∧
      (∀ x, 0 < t.frequency x → x ≠ [] ∧ (x, t.frequency x) ∈ ops) ∧
      (∀ x f, x ≠ [] → (x, f) ∈ ops → 0 < f → 0 < t.frequency x) := by
  obtain ⟨t, hall, htn, ha, hb, _⟩ :=
    insertAll_spec ops DictionaryTrie.empty (by simp [DictionaryTrie.empty, MWTNode.new]) hops
  refine ⟨t, hall, htn, ?_, hb⟩
  intro x hx
  rcases ha x with h | h
  · rw [h, empty_frequency] at hx; omega
  · exact h

theorem find_eq (t : DictionaryTrie) (w : List Char) (ht : t.root ≠ .null)
    (hw : overAlphabet w) :
    t.find w = .ok (decide (w ≠ [] ∧ t.frequency w ≠ 0)) := by
  obtain ⟨f, ch, hr⟩ := root_eq_node ht
  by_cases hne : w = []
  · simp [DictionaryTrie.find, hne]
  · simp only [DictionaryTrie.find, hne, if_false, hr, findLoop_eq_walk w f ch hw,
      DictionaryTrie.frequency]
    simp [hne]

/-! ### The breadth-first search -/

theorem queueSize_append (q1 q2 : List (List Char × MWTNode)) :
    queueSize (q1 ++ q2) = queueSize q1 + queueSize q2 := by
  simp [queueSize]

theorem pushChildren_aux (s : List Char) (ch : Fin 27 → MWTNode)
    (g : Fin 27 → Option (List Char × MWTNode))
    (hg : ∀ i, (ch i = .null ∧ g i = none) ∨
      (ch i ≠ .null ∧ g i = some (s ++ [returnChar i.val], ch i)))
    (l : List (Fin 27)) :
    queueSize (l.filterMap g) = (l.map (fun i => (ch i).size)).sum ∧
    (l.filterMap g).flatMap (fun x => candidates x.1 x.2)
      = l.flatMap (fun i => ((ch i).words).map
          (fun x => (s ++ returnChar i.val :: x.1, toInt32 x.2))) ∧
    ∀ x ∈ l.filterMap g, x.2 ≠ .null := by
  induction l with
  | nil => simp [queueSize]
  | cons i l ih =>
    obtain ⟨ih1, ih2, ih3⟩ := ih
    rcases hg i with ⟨hch, hgi⟩ | ⟨hch, hgi⟩
    · simp only [List.filterMap_cons, hgi, hch, List.map_cons, List.sum_cons, List.flatMap_cons]
      refine ⟨by simpa [MWTNode.size] using ih1, by simpa [MWTNode.words] using ih2, ih3⟩
    · simp only [List.filterMap_cons, hgi, List.map_cons, List.sum_cons, List.flatMap_cons]
      refine ⟨?_, ?_, ?_⟩
      · simp only [queueSize, List.map_cons, List.sum_cons] at ih1 ⊢
        rw [ih1]
      · rw [ih2]
        simp [candidates, List.map_map, Function.comp_def]
      · intro x hx
        rcases List.mem_cons.mp hx with rfl | hx
        · exact hch
        · exact ih3 x hx

theorem pushChildren_spec (s : List Char) (ch : Fin 27 → MWTNode) :
    queueSize (pushChildren s ch) = ((List.finRange 27).map (fun i => (ch i).size)).sum ∧
    (pushChildren s ch).flatMap (fun x => candidates x.1 x.2)
      = (List.finRange 27).flatMap (fun i => ((ch i).words).map
          (fun x => (s ++ returnChar i.val :: x.1, toInt32 x.2))) ∧
    ∀ x ∈ pushChildren s ch, x.2 ≠ .null := by
  unfold pushChildren
  apply pushChildren_aux
  intro i
  cases hch : ch i with
  | null => exact Or.inl ⟨rfl, rfl⟩
  | node f1 ch1 => exact Or.inr ⟨by simp, rfl⟩

theorem bfs_spec (fuel : Nat) (q : List (List Char × MWTNode)) (pq : PriorityQueue)
    (hfuel : queueSize q ≤ fuel) (hq : ∀ x ∈ q, x.2 ≠ .null) :
    ∃ pq1, bfs fuel q pq = .ok pq1 ∧
      List.Perm pq1 (pq ++ q.flatMap (fun x => candidates x.1 x.2)) := by
  induction fuel generalizing q pq with
  | zero =>
    cases q with
    | nil => exact ⟨pq, rfl, by simp⟩
    | cons x rest =>
      exfalso
      obtain ⟨s, n⟩ := x
      cases n with
      | null => exact hq (s, .null) (List.mem_cons_self _ _) rfl
      | node f ch =>
        simp [queueSize, MWTNode.size] at hfuel
  | succ fuel ih =>
    cases q with
    | nil => exact ⟨pq, rfl, by simp⟩
    | cons x rest =>
      obtain ⟨s, n⟩ := x
      cases n with
      | null => exact absurd rfl (hq (s, .null) (List.mem_cons_self _ _))
      | node f ch =>
        obtain ⟨h1, h2, h3⟩ := pushChildren_spec s ch
        have hsz : queueSize (rest ++ pushChildren s ch) ≤ fuel := by
          rw [queueSize_append, h1]
          simp only [queueSize, List.map_cons, List.sum_cons, MWTNode.size] at hfuel ⊢
          omega
        have hnn : ∀ x ∈ rest ++ pushChildren s ch, x.2 ≠ .null := by
          intro x hx
          rcases List.mem_append.mp hx with hx | hx
          · exact hq x (List.mem_cons_of_mem _ hx)
          · exact h3 x hx
        obtain ⟨pq1, hb, hp⟩ := ih (rest ++ pushChildren s ch)
          (if f > 0 then PriorityQueue.push pq (s, toInt32 f) else pq) hsz hnn
        refine ⟨pq1, by simp only [bfs, hb], hp.trans ?_⟩
        rw [List.flatMap_append, h2]
        simp only [List.flatMap_cons, candidates, MWTNode.words, List.map_append,
          List.map_flatMap, List.map_map, Function.comp_def]
        rw [← Multiset.coe_eq_coe]
        by_cases hf : 0 < f
        · simp only [gt_iff_lt, hf, if_true, PriorityQueue.push, List.map_cons, List.map_nil,
            List.append_nil, ← Multiset.coe_add, ← Multiset.cons_coe, ← Multiset.singleton_add]
          abel
        · simp only [gt_iff_lt, hf, if_false, List.map_nil, List.nil_append,
            ← Multiset.coe_add]
          abel

/-! ### The stored words below a node -/

theorem returnChar_injective {i j : Fin 27} (h : returnChar i.val = returnChar j.val) : i = j := by
  have hi := symbolIndex_returnChar i
  rw [h, symbolIndex_returnChar j] at hi
  exact (Option.some.inj hi).symm

theorem mem_words (n : MWTNode) (w : List Char) (g : Nat) :
    (w, g) ∈ n.words ↔ 0 < g ∧ (MWTNode.walk w n).frequency = g := by
  induction n generalizing w g with
  | null => simp only [MWTNode.words, walk_null, MWTNode.frequency]; constructor
            · intro h; cases h
            · rintro ⟨h1, h2⟩; omega
  | node f ch ih =>
    simp only [MWTNode.words, List.mem_append, List.mem_flatMap, List.mem_map, Prod.mk.injEq]
    cases w with
    | nil =>
      simp only [MWTNode.walk, MWTNode.frequency]
      constructor
      · rintro (h | ⟨i, _, x, _, h, _⟩)
        · by_cases hf : 0 < f
          · simp only [hf, if_true, List.mem_singleton, Prod.mk.injEq, true_and] at h
            omega
          · simp [hf] at h
        · cases h
      · rintro ⟨h1, h2⟩
        left
        subst h2
        simp [h1]
    | cons c cs =>
      simp only [MWTNode.walk]
      constructor
      · rintro (h | ⟨i, _, x, hx, h, hg⟩)
        · by_cases hf : 0 < f
          · simp [hf] at h
          · simp [hf] at h
        · obtain ⟨x1, x2⟩ := x
          simp only [List.cons.injEq] at h
          obtain ⟨hc, hcs⟩ := h
          simp only at hcs hg
          subst hcs; subst hg; subst hc
          rw [symbolIndex_returnChar i]
          exact (ih i x1 x2).mp hx
      · rintro ⟨h1, h2⟩
        right
        cases hs : symbolIndex c with
        | none => rw [hs] at h2; simp only [MWTNode.frequency] at h2; omega
        | some i =>
          rw [hs] at h2
          simp only at h2
          refine ⟨i, List.mem_finRange i, (cs, g), (ih i cs g).mpr ⟨h1, h2⟩, ?_, rfl⟩
          simp [returnChar_of_symbolIndex hs]

theorem words_keys_nodup (n : MWTNode) : (n.words.map Prod.fst).Nodup := by
  induction n with
  | null => simp [MWTNode.words]
  | node f ch ih =>
    simp only [MWTNode.words, List.map_append, List.map_flatMap, List.map_map]
    rw [List.nodup_append]
    refine ⟨?_, ?_, ?_⟩
    · by_cases hf : 0 < f <;> simp [hf]
    · rw [List.nodup_flatMap]
      refine ⟨?_, ?_⟩
      · intro i _
        have : (List.map (Prod.fst ∘ fun x : List Char × Nat => (returnChar i.val :: x.1, x.2))
            (ch i).words) = ((ch i).words.map Prod.fst).map (fun s => returnChar i.val :: s) := by
          simp [List.map_map, Function.comp_def]
        rw [this]
        exact (ih i).map (fun a b hab => (List.cons.inj hab).2)
      · refine (List.nodup_finRange 27).imp ?_
        intro i j hij
        simp only [Function.onFun, List.disjoint_left, List.mem_map, Function.comp_apply]
        rintro a ⟨x, _, rfl⟩ ⟨y, _, hy⟩
        exact hij (returnChar_injective (List.cons.inj hy).1).symm
    · simp only [List.disjoint_left, List.mem_map, List.mem_flatMap, Function.comp_apply]
      rintro a ⟨x, hx, rfl⟩ ⟨i, _, y, _, hy⟩
      by_cases hf : 0 < f
      · simp only [hf, if_true, List.mem_singleton] at hx
        subst hx
        cases hy
      · simp [hf] at hx

/-! ### The comparator and the priority queue -/

theorem CustomComparator_iff (a b : List Char × Int) :
    CustomComparator a b = true ↔ a.2 < b.2 ∨ (a.2 = b.2 ∧ b.1 < a.1) := by
  unfold CustomComparator
  by_cases h : a.2 = b.2
  · simp [h]
  · simp [h]

theorem CustomComparator_irrefl (a : List Char × Int) : CustomComparator a a = false := by
  rw [← Bool.not_eq_true, CustomComparator_iff]
  rintro (h | ⟨_, h⟩)
  · exact lt_irrefl _ h
  · exact lt_irrefl _ h

theorem CustomComparator_asymm {a b : List Char × Int} (h : CustomComparator a b = true) :
    CustomComparator b a = false := by
  rw [← Bool.not_eq_true, CustomComparator_iff]
  rw [CustomComparator_iff] at h
  rintro (h1 | ⟨h1, h2⟩)
  · rcases h with h | ⟨h, _⟩
    · exact lt_asymm h h1
    · rw [h] at h1; exact lt_irrefl _ h1
  · rcases h with h | ⟨_, h⟩
    · rw [h1] at h; exact lt_irrefl _ h
    · exact lt_asymm h h2

theorem CustomComparator_total {a b : List Char × Int} (h : a ≠ b) :
    CustomComparator a b = true ∨ CustomComparator b a = true := by
  rw [CustomComparator_iff, CustomComparator_iff]
  rcases lt_trichotomy a.2 b.2 with h1 | h1 | h1
  · exact Or.inl (Or.inl h1)
  · rcases lt_trichotomy a.1 b.1 with h2 | h2 | h2
    · exact Or.inr (Or.inr ⟨h1.symm, h2⟩)
    · exact absurd (Prod.ext h2 h1) h
    · exact Or.inl (Or.inr ⟨h1, h2⟩)
  · exact Or.inr (Or.inl h1)

theorem CustomComparator_trans {a b c : List Char × Int} (h1 : CustomComparator a b = true)
    (h2 : CustomComparator b c = true) : CustomComparator a c = true := by
  rw [CustomComparator_iff] at h1 h2 ⊢
  rcases h1 with h1 | ⟨h1, h1s⟩
  · rcases h2 with h2 | ⟨h2, _⟩
    · exact Or.inl (lt_trans h1 h2)
    · exact Or.inl (h2 ▸ h1)
  · rcases h2 with h2 | ⟨h2, h2s⟩
    · exact Or.inl (h1 ▸ h2)
    · exact Or.inr ⟨h1.trans h2, lt_trans h2s h1s⟩

theorem CustomComparator_negtrans {a b c : List Char × Int} (h1 : CustomComparator a b = false)
    (h2 : CustomComparator b c = false) : CustomComparator a c = false := by
  rw [← Bool.not_eq_true] at h1 h2 ⊢
  intro hac
  by_cases hab : a = b
  · subst hab; exact h2 hac
  · by_cases hbc : b = c
    · subst hbc; exact h1 hac
    · have hba : CustomComparator b a = true := (CustomComparator_total hab).resolve_left h1
      have hcb : CustomComparator c b = true := (CustomComparator_total hbc).resolve_left h2
      have hca := CustomComparator_trans hcb hba
      have := CustomComparator_asymm hac
      rw [hca] at this
      cases this

theorem top_spec (pq : PriorityQueue) (hne : pq ≠ []) :
    ∃ m, PriorityQueue.top pq = some m ∧ m ∈ pq ∧ ∀ x ∈ pq, CustomComparator m x = false := by
  induction pq with
  | nil => exact absurd rfl hne
  | cons x xs ih =>
    cases xs with
    | nil =>
      refine ⟨x, rfl, List.mem_singleton.mpr rfl, ?_⟩
      intro y hy
      rw [List.mem_singleton.mp hy]
      exact CustomComparator_irrefl x
    | cons x1 xs1 =>
      obtain ⟨y, hy, hmem, hmax⟩ := ih (by simp)
      by_cases hc : CustomComparator x y = true
      · refine ⟨y, by simp only [PriorityQueue.top] at hy ⊢; simp [hy, hc],
          List.mem_cons_of_mem _ hmem, ?_⟩
        intro z hz
        rcases List.mem_cons.mp hz with rfl | hz
        · exact CustomComparator_asymm hc
        · exact hmax z hz
      · rw [Bool.not_eq_true] at hc
        refine ⟨x, by simp only [PriorityQueue.top] at hy ⊢; simp [hy, hc],
          List.mem_cons_self _ _, ?_⟩
        intro z hz
        rcases List.mem_cons.mp hz with rfl | hz
        · exact CustomComparator_irrefl _
        · exact CustomComparator_negtrans hc (hmax z hz)

theorem top_mem {pq : PriorityQueue} {m : List Char × Int} (h : PriorityQueue.top pq = some m) :
    m ∈ pq := by
  have hne : pq ≠ [] := by rintro rfl; cases h
  obtain ⟨m1, h1, hmem, _⟩ := top_spec pq hne
  rw [h] at h1
  cases h1
  exact hmem

theorem remove_subset (m : List Char × Int) (pq : PriorityQueue) :
    ∀ x ∈ PriorityQueue.remove m pq, x ∈ pq := by
  induction pq with
  | nil => intro x hx; cases hx
  | cons y ys ih =>
    intro x hx
    simp only [PriorityQueue.remove] at hx
    by_cases hy : y = m
    · rw [if_pos hy] at hx; exact List.mem_cons_of_mem _ hx
    · rw [if_neg hy] at hx
      rcases List.mem_cons.mp hx with rfl | hx
      · exact List.mem_cons_self _ _
      · exact List.mem_cons_of_mem _ (ih x hx)

theorem perm_cons_remove {m : List Char × Int} {pq : PriorityQueue} (h : m ∈ pq) :
    List.Perm pq (m :: PriorityQueue.remove m pq) := by
  induction pq with
  | nil => cases h
  | cons y ys ih =>
    simp only [PriorityQueue.remove]
    by_cases hy : y = m
    · rw [if_pos hy, hy]
    · rw [if_neg hy]
      have hm : m ∈ ys := by
        rcases List.mem_cons.mp h with rfl | h
        · exact absurd rfl hy
        · exact h
      exact ((ih hm).cons y).trans (List.Perm.swap m y _)

theorem pop_subset (pq : PriorityQueue) : ∀ x ∈ PriorityQueue.pop pq, x ∈ pq := by
  intro x hx
  unfold PriorityQueue.pop at hx
  cases h : PriorityQueue.top pq with
  | none => rw [h] at hx; exact hx
  | some m => rw [h] at hx; exact remove_subset m pq x hx

/-- Popping `m` elements from a queue whose contents, ranked best first, are
`ranked` yields the first `m` strings of `ranked`. -/
theorem popLoop_ranked (m : Nat) (ranked : List (List Char × Int)) (pq : PriorityQueue)
    (acc : List (List Char)) (hperm : List.Perm ranked pq)
    (hsorted : ranked.Pairwise (fun a b => CustomComparator b a = true))
    (hm : m ≤ ranked.length) :
    popLoop m pq acc = .ok (acc ++ (ranked.take m).map Prod.fst) := by
  induction m generalizing ranked pq acc with
  | zero => simp [popLoop]
  | succ m ih =>
    cases ranked with
    | nil => simp at hm
    | cons a rest =>
      have hne : pq ≠ [] := by
        rintro rfl
        exact absurd hperm.length_eq (by simp)
      obtain ⟨mx, htop, hmem, hmax⟩ := top_spec pq hne
      have ha : a ∈ pq := hperm.subset (List.mem_cons_self _ _)
      have hmx : mx = a := by
        rcases List.mem_cons.mp (hperm.symm.subset hmem) with h | h
        · exact h
        · have h1 := (List.pairwise_cons.mp hsorted).1 mx h
          rw [hmax a ha] at h1
          cases h1
      subst hmx
      have hpop : List.Perm rest (PriorityQueue.pop pq) := by
        unfold PriorityQueue.pop
        rw [htop]
        exact (hperm.trans (perm_cons_remove hmem)).cons_inv
      have := ih rest (PriorityQueue.pop pq) (acc ++ [mx.1]) hpop
        (List.pairwise_cons.mp hsorted).2 (by simpa using hm)
      simp only [popLoop, htop, this, List.take_succ_cons, List.map_cons, List.append_assoc,
        List.singleton_append]

theorem popLoop_subset (m : Nat) (pq : PriorityQueue) (acc res : List (List Char))
    (h : popLoop m pq acc = .ok res) :
    ∀ w ∈ res, w ∈ acc ∨ ∃ x ∈ pq, x.1 = w := by
  induction m generalizing pq acc with
  | zero =>
    intro w hw
    simp only [popLoop] at h
    cases h
    exact Or.inl hw
  | succ m ih =>
    cases htop : PriorityQueue.top pq with
    | none => simp [popLoop, htop] at h
    | some mx =>
      simp only [popLoop, htop] at h
      intro w hw
      rcases ih _ _ h w hw with h1 | ⟨x, hx, rfl⟩
      · rcases List.mem_append.mp h1 with h1 | h1
        · exact Or.inl h1
        · exact Or.inr ⟨mx, top_mem htop, (List.mem_singleton.mp h1).symm⟩
      · exact Or.inr ⟨x, pop_subset pq x hx, rfl⟩

/-! ### `predictCompletions` -/

theorem toInt32_of_lt {n : Nat} (h : n < 2 ^ 31) : toInt32 n = (n : Int) := by
  unfold toInt32
  have h1 : n % 2 ^ 32 = n := Nat.mod_eq_of_lt (by omega)
  rw [h1, if_pos h]

theorem returnSize_eq {k n : Nat} (hk : k < 2 ^ 31) (hn : n < 2 ^ 31) :
    toUInt32 (checkSize (toInt32 k) (toInt32 n)) = min k n := by
  rw [toInt32_of_lt hk, toInt32_of_lt hn]
  unfold checkSize toUInt32
  by_cases h : (n : Int) < (k : Int)
  · rw [if_pos h]
    have : min k n = n := by omega
    rw [this]
    omega
  · rw [if_neg h]
    have : min k n = k := by omega
    rw [this]
    omega

/-- What `predictCompletions` computes once `findHelper` has found a node. -/
theorem predictCompletions_node (t : DictionaryTrie) (p : List Char) (k : Nat)
    (f : Nat) (ch : Fin 27 → MWTNode) (hp : p ≠ []) (hk : 0 < k)
    (hfind : findHelper p t.root = .ok (.node f ch)) :
    ∃ pq : PriorityQueue, List.Perm pq (candidates p (.node f ch)) ∧
      t.predictCompletions p k
        = popLoop (toUInt32 (checkSize (toInt32 k) (toInt32 pq.length))) pq [] := by
  obtain ⟨pq, hb, hperm⟩ := bfs_spec (MWTNode.size (.node f ch)) [(p, .node f ch)] []
    (by simp [queueSize]) (by simp)
  refine ⟨pq, by simpa using hperm, ?_⟩
  have hlen : ¬ (p.length = 0 ∨ k ≤ 0) := by
    rintro (h | h)
    · exact hp (List.length_eq_zero.mp h)
    · omega
  simp only [DictionaryTrie.predictCompletions, hlen, if_false, hfind, hb]

theorem mem_candidates (t : DictionaryTrie) (p : List Char) (x : List Char × Int) :
    x ∈ candidates p (t.root.walk p) ↔
      ∃ s, x = (p ++ s, toInt32 (t.frequency (p ++ s))) ∧ 0 < t.frequency (p ++ s) := by
  unfold candidates
  simp only [List.mem_map, DictionaryTrie.frequency, walk_append]
  constructor
  · rintro ⟨⟨s, g⟩, hmem, rfl⟩
    obtain ⟨hg, hfr⟩ := (mem_words _ s g).mp hmem
    exact ⟨s, by simp only [hfr], by omega⟩
  · rintro ⟨s, rfl, hpos⟩
    exact ⟨(s, (MWTNode.walk s (MWTNode.walk p t.root)).frequency),
      (mem_words _ _ _).mpr ⟨hpos, rfl⟩, rfl⟩

theorem candidates_keys_nodup (p : List Char) (n : MWTNode) :
    ((candidates p n).map Prod.fst).Nodup := by
  have : (candidates p n).map Prod.fst = (n.words.map Prod.fst).map (fun s => p ++ s) := by
    simp [candidates, List.map_map, Function.comp_def]
  rw [this]
  exact (words_keys_nodup n).map (fun a b hab => List.append_cancel_left hab)

theorem not_stored_of_walk_null (t : DictionaryTrie) (p w : List Char)
    (hnull : t.root.walk p = .null) (hpw : p <+: w) : ¬ t.stored w := by
  obtain ⟨s, rfl⟩ := hpw
  unfold DictionaryTrie.stored DictionaryTrie.frequency
  rw [walk_append, hnull, walk_null]
  simp [MWTNode.frequency]

/-- The ranked list of the completions exists, and `predictCompletions` returns
its first `min k n` entries when the counts fit in an `int`. -/
theorem predictCompletions_ranked (t : DictionaryTrie) (p : List Char) (k : Nat)
    (ht : t.root ≠ .null) (hfreq : ∀ x, t.frequency x < 2 ^ 31)
    (hp : p ≠ []) (hpa : overAlphabet p) (hk1 : 1 ≤ k) (hk : k < 2 ^ 31) :
    ∃ L, t.isRankedCompletions p L ∧
      (L.length < 2 ^ 31 → t.predictCompletions p k = .ok (L.take (min k L.length))) := by
  obtain ⟨f0, ch0, hr⟩ := root_eq_node ht
  have hfind : findHelper p t.root = .ok (t.root.walk p) := by
    rw [hr]; exact findHelper_eq_walk p f0 ch0 hpa
  cases hcurr : t.root.walk p with
  | null =>
    refine ⟨[], ⟨?_, List.Pairwise.nil⟩, ?_⟩
    · intro w
      constructor
      · intro h; cases h
      · rintro ⟨hpw, hst⟩
        exact absurd hst (not_stored_of_walk_null t p w hcurr hpw)
    · intro _
      have hlen : ¬ (p.length = 0 ∨ k ≤ 0) := by
        rintro (h | h)
        · exact hp (List.length_eq_zero.mp h)
        · omega
      rw [hcurr] at hfind
      simp [DictionaryTrie.predictCompletions, hlen, hfind]
  | node f ch =>
    rw [hcurr] at hfind
    obtain ⟨pq, hperm, hrun⟩ := predictCompletions_node t p k f ch hp (by omega) hfind
    rw [← hcurr] at hperm
    -- the contents of the priority queue, ranked best first
    let r : List Char × Int → List Char × Int → Prop := fun a b => CustomComparator a b = false
    haveI : DecidableRel r := fun a b => inferInstanceAs (Decidable (CustomComparator a b = false))
    haveI : IsTotal (List Char × Int) r := ⟨fun a b => by
      by_cases h : CustomComparator a b = true
      · exact Or.inr (CustomComparator_asymm h)
      · exact Or.inl (by simpa using h)⟩
    haveI : IsTrans (List Char × Int) r := ⟨fun a b c h1 h2 => CustomComparator_negtrans h1 h2⟩
    have hsperm : List.Perm (List.insertionSort r pq) pq := List.perm_insertionSort r pq
    have hsorted : (List.insertionSort r pq).Pairwise r := List.sorted_insertionSort r pq
    have hkeys : ((List.insertionSort r pq).map Prod.fst).Nodup :=
      ((hsperm.trans hperm).map Prod.fst).nodup_iff.mpr (candidates_keys_nodup p _)
    have hnodup : (List.insertionSort r pq).Nodup := List.Nodup.of_map _ hkeys
    have hstrict : (List.insertionSort r pq).Pairwise (fun a b => CustomComparator b a = true) :=
      hsorted.imp₂ (fun a b h1 h2 => (CustomComparator_total h2).resolve_left (by simp [h1]))
        hnodup
    have hmemc : ∀ x, x ∈ List.insertionSort r pq ↔
        ∃ s, x = (p ++ s, toInt32 (t.frequency (p ++ s))) ∧ 0 < t.frequency (p ++ s) := by
      intro x
      rw [(hsperm.trans hperm).mem_iff]
      exact mem_candidates t p x
    refine ⟨(List.insertionSort r pq).map Prod.fst, ⟨?_, ?_⟩, ?_⟩
    · intro w
      rw [List.mem_map]
      constructor
      · rintro ⟨x, hx, rfl⟩
        obtain ⟨s, rfl, hpos⟩ := (hmemc x).mp hx
        exact ⟨List.prefix_append p s, hpos⟩
      · rintro ⟨⟨s, rfl⟩, hpos⟩
        exact ⟨_, (hmemc _).mpr ⟨s, rfl, hpos⟩, rfl⟩
    · rw [List.pairwise_map]
      refine hstrict.imp_of_mem ?_
      intro a b ha hb hab
      obtain ⟨s1, rfl, _⟩ := (hmemc a).mp ha
      obtain ⟨s2, rfl, _⟩ := (hmemc b).mp hb
      rw [CustomComparator_iff, toInt32_of_lt (hfreq _), toInt32_of_lt (hfreq _)] at hab
      unfold DictionaryTrie.ranksBefore
      simp only at hab ⊢
      rcases hab with h | ⟨h, hlt⟩
      · left; exact_mod_cast h
      · right; exact ⟨by exact_mod_cast h.symm, hlt⟩
    · intro hcount
      rw [List.length_map] at hcount
      have hlen : pq.length = (List.insertionSort r pq).length := hsperm.length_eq.symm
      rw [hrun, hlen, returnSize_eq hk hcount,
        popLoop_ranked _ (List.insertionSort r pq) pq [] hsperm hstrict (Nat.min_le_right _ _)]
      simp [List.map_take]

/-! ### The step budget of the queue loops is never exhausted -/

theorem pop_length {pq : PriorityQueue} {m : List Char × Int}
    (h : PriorityQueue.top pq = some m) : (PriorityQueue.pop pq).length + 1 = pq.length := by
  unfold PriorityQueue.pop
  rw [h]
  have := (perm_cons_remove (top_mem h)).length_eq
  simpa using this.symm

theorem compareLoop_error (pattern word : List Char) (n i : Nat) (acc : List (List Char))
    (e : Fault) (h : compareLoop pattern word n i acc = .error e) : e = .outOfRange := by
  induction n generalizing i acc with
  | zero => simp [compareLoop] at h
  | succ n ih =>
    simp only [compareLoop, substr] at h
    split at h
    · next heq =>
      split at heq
      · cases heq; cases h; rfl
      · cases heq
    · split at h
      · next heq =>
        split at heq
        · cases heq; cases h; rfl
        · cases heq
      · exact ih _ _ h

theorem filterLoop_fuel (pattern : List Char) (fuel k : Nat) (pq : PriorityQueue)
    (acc : List (List Char)) (hfuel : pq.length ≤ fuel + k) :
    filterLoop pattern fuel k pq acc ≠ .error .outOfFuel := by
  induction fuel generalizing k pq acc with
  | zero =>
    unfold filterLoop
    rw [if_neg (by omega)]
    intro h; cases h
  | succ fuel ih =>
    unfold filterLoop
    by_cases hk : k < pq.length
    · rw [if_pos hk]
      simp only
      cases htop : PriorityQueue.top pq with
      | none => intro h; cases h
      | some w =>
        simp only
        cases hcmp : compareLoop pattern w.1 pattern.length 0 acc with
        | error e =>
          have := compareLoop_error _ _ _ _ _ _ hcmp
          subst this
          intro h; cases h
        | ok acc1 =>
          simp only
          apply ih
          have := pop_length htop
          omega
    · rw [if_neg hk]
      intro h; cases h

theorem findHelper_error (w : List Char) (n : MWTNode) (e : Fault)
    (h : findHelper w n = .error e) : e = .undefinedBehaviour := by
  induction w generalizing n with
  | nil => simp [findHelper] at h
  | cons c cs ih =>
    cases n with
    | null => simp only [findHelper] at h; cases h; rfl
    | node f ch =>
      simp only [findHelper] at h
      split at h
      · cases h; rfl
      · split at h
        · cases h
        · exact ih _ h

theorem findHelperUnderscore_error (w : List Char) (n : MWTNode) (e : Fault)
    (h : findHelperUnderscore w n = .error e) : e ≠ .outOfFuel := by
  induction w generalizing n with
  | nil => simp only [findHelperUnderscore] at h; cases h; intro h1; cases h1
  | cons c cs ih =>
    simp only [findHelperUnderscore] at h
    split at h
    · cases h
    · cases n with
      | null => simp only at h; cases h; intro h1; cases h1
      | node f ch =>
        simp only at h
        split at h
        · cases h; intro h1; cases h1
        · split at h
          · cases h
          · exact ih _ h

theorem popLoop_error (m : Nat) (pq : PriorityQueue) (acc : List (List Char)) (e : Fault)
    (h : popLoop m pq acc = .error e) : e = .undefinedBehaviour := by
  induction m generalizing pq acc with
  | zero => simp [popLoop] at h
  | succ m ih =>
    simp only [popLoop] at h
    split at h
    · cases h; rfl
    · exact ih _ _ h

theorem bfs_from_node (s : List Char) (f : Nat) (ch : Fin 27 → MWTNode) :
    ∃ pq, bfs (MWTNode.size (.node f ch)) [(s, .node f ch)] [] = .ok pq := by
  obtain ⟨pq, hb, _⟩ := bfs_spec (MWTNode.size (.node f ch)) [(s, .node f ch)] []
    (by simp [queueSize]) (by simp)
  exact ⟨pq, hb⟩

/-- Neither `predictCompletions` nor `predictUnderscores` ever ends by
exhausting the step budget of the embedding: every fault they report is a
fault of the C++ code. -/
theorem step_budget_suffices (t : DictionaryTrie) (s : List Char) (k : Nat) :
    t.predictCompletions s k ≠ .error .outOfFuel ∧
    t.predictUnderscores s k ≠ .error .outOfFuel := by
  constructor
  · unfold DictionaryTrie.predictCompletions
    split
    · intro h; cases h
    · split
      · next e he =>
        rw [findHelper_error _ _ _ he]
        intro h; cases h
      · intro h; cases h
      · next f ch _ =>
        obtain ⟨pq, hb⟩ := bfs_from_node s f ch
        rw [hb]
        simp only
        intro h
        have := popLoop_error _ _ _ _ h
        cases this
  · unfold DictionaryTrie.predictUnderscores
    split
    · intro h; cases h
    · split
      · next e he =>
        intro h
        exact findHelperUnderscore_error _ _ _ he (Except.error.inj h)
      · intro h; cases h
      · next f ch _ =>
        obtain ⟨pq, hb⟩ := bfs_from_node [] f ch
        rw [hb]
        simp only
        exact filterLoop_fuel s pq.length 0 pq [] (by omega)

/-! ### Claims on `insert` and `find` -/

/-- C2: on any trie, inserting a non-empty word over the alphabet that `find`
does not report, with a frequency above 0, returns true, and `find` then
reports the word on the resulting trie. -/
theorem insert_new_then_find (t : DictionaryTrie) (w : List Char) (f : Nat)
    (ht : t.root ≠ .null) (hne : w ≠ []) (hw : overAlphabet w)
    (hnot : t.find w = .ok false) (hf : 0 < f) :
    ∃ t1, t.insert w f = .ok (true, t1) ∧ t1.find w = .ok true := by
  obtain ⟨t1, hins, ht1, hfreq⟩ := insert_spec t w f ht hw
  rw [find_eq t w ht hw] at hnot
  have h0 : t.frequency w = 0 := by
    have := Except.ok.inj hnot
    simpa [hne] using this
  refine ⟨t1, ?_, ?_⟩
  · rw [hins]; simp [hne, h0]
  · rw [find_eq t1 w ht1 hw, hfreq w]
    simp [hne, h0]; omega

theorem insert_new_then_find_witness :
    ∃ t1, DictionaryTrie.empty.insert ['c', 'a', 't'] 5 = .ok (true, t1) ∧
      t1.find ['c', 'a', 't'] = .ok true :=
  insert_new_then_find DictionaryTrie.empty ['c', 'a', 't'] 5
    (by simp [DictionaryTrie.empty, MWTNode.new]) (by decide) (by decide) (by decide) (by decide)

/-- C3: on the trie built from the empty trie by a sequence of `insert` calls
on words over the alphabet, `find w` (for `w` over the alphabet) returns true
exactly when `w` is non-empty and some call of the sequence was `insert(w, f)`
with `f > 0`; so it returns false on a word that was never inserted and on the
empty string. -/
theorem find_iff_inserted (ops : List (List Char × Nat)) (w : List Char)
    (hops : ∀ op ∈ ops, overAlphabet op.1) (hw : overAlphabet w) :
    ∃ t b, build ops = .ok t ∧ t.find w = .ok b ∧
      (b = true ↔ (w ≠ [] ∧ ∃ f, 0 < f ∧ (w, f) ∈ ops)) ∧
      ((∀ f, (w, f) ∉ ops) → t.find w = .ok false) ∧
      t.find [] = .ok false := by
  obtain ⟨t, hb, htn, ha, hbb⟩ := build_spec ops hops
  have hiff : decide (w ≠ [] ∧ t.frequency w ≠ 0) = true ↔
      (w ≠ [] ∧ ∃ f, 0 < f ∧ (w, f) ∈ ops) := by
    rw [decide_eq_true_iff]
    constructor
    · rintro ⟨hne, hfr⟩
      exact ⟨hne, t.frequency w, by omega, (ha w (by omega)).2⟩
    · rintro ⟨hne, f, hf, hmem⟩
      exact ⟨hne, by have := hbb w f hne hmem hf; omega⟩
  refine ⟨t, decide (w ≠ [] ∧ t.frequency w ≠ 0), hb, find_eq t w htn hw, hiff, ?_, ?_⟩
  · intro hnever
    rw [find_eq t w htn hw]
    congr 1
    rw [decide_eq_false_iff_not]
    intro hcon
    obtain ⟨_, f, _, hmem⟩ := hiff.mp (decide_eq_true hcon)
    exact hnever f hmem
  · simp [DictionaryTrie.find]

theorem find_iff_inserted_witness :
    ∃ t b, build [(['c', 'a', 't'], 5), (['c', 'a', 'r'], 0)] = .ok t ∧
      t.find ['c', 'a'] = .ok b ∧
      (b = true ↔ (['c', 'a'] ≠ [] ∧
        ∃ f, 0 < f ∧ ((['c', 'a'] : List Char), f) ∈
          [((['c', 'a', 't'] : List Char), 5), ((['c', 'a', 'r'] : List Char), 0)])) ∧
      ((∀ f, ((['c', 'a'] : List Char), f) ∉
          [((['c', 'a', 't'] : List Char), 5), ((['c', 'a', 'r'] : List Char), 0)]) →
        t.find ['c', 'a'] = .ok false) ∧
      t.find [] = .ok false :=
  find_iff_inserted [(['c', 'a', 't'], 5), (['c', 'a', 'r'], 0)] ['c', 'a']
    (by decide) (by decide)

/-- C4: when `w` is stored in the trie with frequency `f0 > 0`, `insert(w, f)`
returns false for every `f` and the trie after the call is the trie before
it: no node is created and the frequency of `w` is still `f0`. -/
theorem insert_existing_unchanged (t : DictionaryTrie) (w : List Char) (f0 f : Nat)
    (hst : t.frequency w = f0) (hf0 : 0 < f0) :
    ∃ t1, t.insert w f = .ok (false, t1) ∧ t1 = t ∧ t1.frequency w = f0 := by
  refine ⟨t, ?_, rfl, hst⟩
  by_cases hne : w = []
  · simp [DictionaryTrie.insert, hne]
  · have ht : t.root ≠ .null := by
      intro h
      simp only [DictionaryTrie.frequency, h, walk_null] at hst
      have : f0 = 0 := hst.symm
      omega
    obtain ⟨g, ch, hr⟩ := root_eq_node ht
    have hfr : (MWTNode.walk w (.node g ch)).frequency ≠ 0 := by
      rw [← hr]; show t.frequency w ≠ 0; omega
    simp only [DictionaryTrie.insert, hne, if_false, hr, insertLoop_stored w f g ch hfr]
    cases t; simp_all

theorem insert_existing_unchanged_witness :
    ∃ t1, (DictionaryTrie.mk (.node 0 (fun i => if i = 0 then .node 7 (fun _ => .null)
        else .null))).insert ['a'] 9 = .ok (false, t1) ∧
      t1 = DictionaryTrie.mk (.node 0 (fun i => if i = 0 then .node 7 (fun _ => .null)
        else .null)) ∧
      t1.frequency ['a'] = 7 :=
  insert_existing_unchanged _ ['a'] 7 9 (by decide) (by decide)

/-- C5: for a word `w` over the alphabet, `insert(w, f)` returns false exactly
when `w` is empty or `w` is already a stored word (the node reached by `w` has
a nonzero frequency); and `insert("", f)` leaves the trie unchanged. -/
theorem insert_false_iff (t : DictionaryTrie) (w : List Char) (f : Nat)
    (ht : t.root ≠ .null) (hw : overAlphabet w) :
    ∃ b t1, t.insert w f = .ok (b, t1) ∧ (b = false ↔ (w = [] ∨ t.stored w)) ∧
      t.insert [] f = .ok (false, t) := by
  obtain ⟨t1, hins, _, _⟩ := insert_spec t w f ht hw
  refine ⟨_, t1, hins, ?_, by simp [DictionaryTrie.insert]⟩
  rw [decide_eq_false_iff_not]
  unfold DictionaryTrie.stored
  constructor
  · intro h
    by_cases hne : w = []
    · exact Or.inl hne
    · right
      by_contra h0
      exact h ⟨hne, by omega⟩
  · rintro (h | h) ⟨hne, h0⟩
    · exact hne h
    · omega

theorem insert_false_iff_witness :
    ∃ b t1, DictionaryTrie.empty.insert ['a', ' ', 'b'] 3 = .ok (b, t1) ∧
      (b = false ↔ ((['a', ' ', 'b'] : List Char) = [] ∨
        DictionaryTrie.empty.stored ['a', ' ', 'b'])) ∧
      DictionaryTrie.empty.insert [] 3 = .ok (false, DictionaryTrie.empty) :=
  insert_false_iff DictionaryTrie.empty ['a', ' ', 'b'] 3
    (by simp [DictionaryTrie.empty, MWTNode.new]) (by decide)

theorem ranksBefore_irrefl (t : DictionaryTrie) (u : List Char) : ¬ t.ranksBefore u u := by
  rintro (h | ⟨_, h⟩)
  · exact lt_irrefl _ h
  · exact lt_irrefl _ h

theorem ranksBefore_asymm (t : DictionaryTrie) {u v : List Char} (h : t.ranksBefore u v) :
    ¬ t.ranksBefore v u := by
  unfold DictionaryTrie.ranksBefore at h ⊢
  rintro (h1 | ⟨h1, h2⟩)
  · rcases h with h | ⟨h, _⟩
    · omega
    · omega
  · rcases h with h | ⟨_, h⟩
    · omega
    · exact lt_asymm h h2

/-- The ranked list of the completions of a prefix is unique. -/
theorem isRankedCompletions_unique (t : DictionaryTrie) (p : List Char)
    (L1 L2 : List (List Char)) (h1 : t.isRankedCompletions p L1)
    (h2 : t.isRankedCompletions p L2) : L1 = L2 := by
  have hn : ∀ L, t.isRankedCompletions p L → L.Nodup := by
    intro L hL
    refine hL.2.imp ?_
    intro u v huv heq
    subst heq
    exact ranksBefore_irrefl t u huv
  have hperm : List.Perm L1 L2 :=
    (List.perm_ext_iff_of_nodup (hn L1 h1) (hn L2 h2)).mpr
      (fun w => (h1.1 w).trans (h2.1 w).symm)
  haveI : IsAntisymm (List Char) t.ranksBefore :=
    ⟨fun a b hab hba => absurd hba (ranksBefore_asymm t hab)⟩
  exact List.eq_of_perm_of_sorted hperm h1.2 h2.2

/-! ### Claims on `predictCompletions` -/

/-- C1: on the trie built from the empty trie by fewer than 2^31 `insert`
calls on words over the alphabet with frequencies below 2^31, for a non-empty
prefix `p` over the alphabet and `1 <= k < 2^31`, `predictCompletions(p, k)`
is the first `min(k, n)` entries of the list `L` of all `n` stored words that
start with `p`, ordered by frequency descending, then by string ascending;
this list exists and is unique. -/
theorem predictCompletions_top_k (ops : List (List Char × Nat)) (p : List Char) (k : Nat)
    (hops : ∀ op ∈ ops, overAlphabet op.1 ∧ op.2 < 2 ^ 31) (hlen : ops.length < 2 ^ 31)
    (hp : p ≠ []) (hpa : overAlphabet p) (hk1 : 1 ≤ k) (hk : k < 2 ^ 31) :
    ∃ t L, build ops = .ok t ∧ t.isRankedCompletions p L ∧
      (∀ L1, t.isRankedCompletions p L1 → L1 = L) ∧
      t.predictCompletions p k = .ok (L.take (min k L.length)) := by
  obtain ⟨t, hb, htn, ha, _⟩ := build_spec ops (fun op hop => (hops op hop).1)
  have hfreq : ∀ x, t.frequency x < 2 ^ 31 := by
    intro x
    by_cases hx : 0 < t.frequency x
    · exact (hops _ (ha x hx).2).2
    · have : t.frequency x = 0 := by omega
      rw [this]; decide
  obtain ⟨L, hL, hrun⟩ := predictCompletions_ranked t p k htn hfreq hp hpa hk1 hk
  refine ⟨t, L, hb, hL, fun L1 hL1 => isRankedCompletions_unique t p L1 L hL1 hL, hrun ?_⟩
  have hnodup : L.Nodup := by
    refine hL.2.imp ?_
    intro u v huv heq
    subst heq
    rcases huv with h | ⟨_, h⟩
    · exact lt_irrefl _ h
    · exact lt_irrefl _ h
  have hsub : L ⊆ ops.map Prod.fst := by
    intro w hw
    have hst : 0 < t.frequency w := ((hL.1 w).mp hw).2
    exact List.mem_map.mpr ⟨_, (ha w hst).2, rfl⟩
  have := (List.subperm_of_subset hnodup hsub).length_le
  rw [List.length_map] at this
  omega

theorem predictCompletions_top_k_witness :
    (∃ t L, build [(['c', 'a', 't'], 5), (['c', 'a', 'r'], 3), (['c', 'a', 'p'], 3)] = .ok t ∧
      t.isRankedCompletions ['c', 'a'] L ∧
      (∀ L1, t.isRankedCompletions ['c', 'a'] L1 → L1 = L) ∧
      t.predictCompletions ['c', 'a'] 2 = .ok (L.take (min 2 L.length))) ∧
    (build [(['c', 'a', 't'], 5), (['c', 'a', 'r'], 3), (['c', 'a', 'p'], 3)]).bind
      (fun t => t.predictCompletions ['c', 'a'] 2) = .ok [['c', 'a', 't'], ['c', 'a', 'p']] :=
  ⟨predictCompletions_top_k [(['c', 'a', 't'], 5), (['c', 'a', 'r'], 3), (['c', 'a', 'p'], 3)]
    ['c', 'a'] 2 (by decide) (by decide) (by decide) (by decide) (by decide) (by decide),
   by decide⟩

/-- C6 (evaluation at the failing input): with "ab" stored with frequency 2^31
and "ac" with frequency 1, `predictCompletions("a", 2)` returns "ac" before
"ab", because the priority queue holds the frequency as an `int`. -/
theorem predictCompletions_signed_frequency :
    (build [(['a', 'b'], 2147483648), (['a', 'c'], 1)]).map
      (fun t => (t.frequency ['a', 'b'], t.frequency ['a', 'c'], t.predictCompletions ['a'] 2))
      = .ok (2147483648, 1, .ok [['a', 'c'], ['a', 'b']]) := by
  decide

/-- C7 (evaluation at the failing input): with the single word "a" stored,
`predictCompletions("a", 2^31)` pops an empty priority queue, because
`checkSize` receives the count as a negative `int`. -/
theorem predictCompletions_large_count :
    (build [(['a'], 1)]).bind (fun t => t.predictCompletions ['a'] 2147483648)
      = .error .undefinedBehaviour := by
  decide

/-- C8: every string that `predictCompletions(p, k)` returns has `p` as a
literal leading substring. -/
theorem predictCompletions_prefix (t : DictionaryTrie) (p : List Char) (k : Nat)
    (res : List (List Char)) (h : t.predictCompletions p k = .ok res) :
    ∀ w ∈ res, p <+: w := by
  by_cases hguard : p.length = 0 ∨ k ≤ 0
  · simp only [DictionaryTrie.predictCompletions, hguard, if_true] at h
    cases h
    intro w hw; cases hw
  · have hp : p ≠ [] := fun hp => hguard (Or.inl (by rw [hp]; rfl))
    have hk : 0 < k := by
      by_contra hk
      exact hguard (Or.inr (by omega))
    cases hfind : findHelper p t.root with
    | error e =>
      simp only [DictionaryTrie.predictCompletions, hguard, if_false, hfind] at h
      cases h
    | ok curr =>
      cases curr with
      | null =>
        simp only [DictionaryTrie.predictCompletions, hguard, if_false, hfind] at h
        cases h
        intro w hw; cases hw
      | node f ch =>
        obtain ⟨pq, hperm, hrun⟩ := predictCompletions_node t p k f ch hp hk hfind
        rw [hrun] at h
        intro w hw
        rcases popLoop_subset _ pq [] res h w hw with h1 | ⟨x, hx, rfl⟩
        · cases h1
        · have hx1 := hperm.subset hx
          unfold candidates at hx1
          obtain ⟨y, _, rfl⟩ := List.mem_map.mp hx1
          exact List.prefix_append p y.1

theorem predictCompletions_prefix_witness :
    exampleTrie.predictCompletions ['c', 'a'] 2 = .ok [['c', 'a', 't'], ['c', 'a', 'p']] ∧
    ['c', 'a'] <+: ['c', 'a', 't'] ∧ ['c', 'a'] <+: ['c', 'a', 'p'] :=
  ⟨by decide,
   predictCompletions_prefix exampleTrie ['c', 'a'] 2 [['c', 'a', 't'], ['c', 'a', 'p']]
    (by decide) ['c', 'a', 't'] (by decide),
   predictCompletions_prefix exampleTrie ['c', 'a'] 2 [['c', 'a', 't'], ['c', 'a', 'p']]
    (by decide) ['c', 'a', 'p'] (by decide)⟩

/-- C9 (counterexample): with " a" stored, no path spells "{" from the root,
yet `predictCompletions("{", 1)` returns the non-empty sequence ["{a"]: the
character '{' has code 123, so that `'{' - 'a'` is 26, the index of the space. -/
theorem predictCompletions_no_path_counterexample :
    (build [([' ', 'a'], 1)]).map
      (fun t => (t.hasPath ['{'], t.predictCompletions ['{'] 1))
      = .ok (false, .ok [['{', 'a']]) := by
  decide

/-- C9 (amended): `predictCompletions("", k)` is empty for every `k`,
`predictCompletions(p, 0)` is empty for every `p`, and `predictCompletions(p, k)`
is empty whenever `p` is over the alphabet and no path spelling `p` exists
from the root. -/
theorem predictCompletions_empty_cases (t : DictionaryTrie) (ht : t.root ≠ .null) :
    (∀ k, t.predictCompletions [] k = .ok []) ∧
    (∀ p, t.predictCompletions p 0 = .ok []) ∧
    (∀ p k, overAlphabet p → t.hasPath p = false → t.predictCompletions p k = .ok []) := by
  refine ⟨?_, ?_, ?_⟩
  · intro k; simp [DictionaryTrie.predictCompletions]
  · intro p; simp [DictionaryTrie.predictCompletions]
  · intro p k hpa hpath
    obtain ⟨f0, ch0, hr⟩ := root_eq_node ht
    have hnull : t.root.walk p = .null := by
      unfold DictionaryTrie.hasPath at hpath
      cases hw : t.root.walk p with
      | null => rfl
      | node f ch => rw [hw] at hpath; cases hpath
    have hfind : findHelper p t.root = .ok .null := by
      rw [hr, findHelper_eq_walk p f0 ch0 hpa, ← hr, hnull]
    by_cases hguard : p.length = 0 ∨ k ≤ 0
    · simp only [DictionaryTrie.predictCompletions, hguard, if_true]
    · simp only [DictionaryTrie.predictCompletions, hguard, if_false, hfind]

theorem predictCompletions_empty_cases_witness :
    exampleTrie.predictCompletions [] 3 = .ok [] ∧
    exampleTrie.predictCompletions ['c', 'a'] 0 = .ok [] ∧
    exampleTrie.hasPath ['c', 'o'] = false ∧
    exampleTrie.predictCompletions ['c', 'o'] 4 = .ok [] :=
  ⟨(predictCompletions_empty_cases exampleTrie (fun h => MWTNode.noConfusion h)).1 3,
   (predictCompletions_empty_cases exampleTrie (fun h => MWTNode.noConfusion h)).2.1 ['c', 'a'],
   by decide,
   (predictCompletions_empty_cases exampleTrie (fun h => MWTNode.noConfusion h)).2.2
     ['c', 'o'] 4 (by decide) (by decide)⟩

/-- C10 (evaluation at the failing input): on the example of the
specification, `predictUnderscores("c_t", 5)` ends with the exception
`std::out_of_range`: the candidate "at" is collected without the literal
prefix "c", and `substr(3, ...)` is called on this string of length 2. -/
theorem predictUnderscores_example_throws :
    (build [(['c', 'a', 't'], 5), (['c', 'o', 't'], 2), (['c', 'u', 'p'], 1)]).bind
      (fun t => t.predictUnderscores ['c', '_', 't'] 5) = .error .outOfRange := by
  decide

/-! ### `findHelperUnderscore` -/

theorem findHelperUnderscore_no_path (pattern : List Char) (f : Nat) (ch : Fin 27 → MWTNode)
    (hpa : overAlphabet (literalPrefix pattern))
    (hnull : MWTNode.walk (literalPrefix pattern) (.node f ch) = .null) :
    findHelperUnderscore pattern (.node f ch) = .ok .null := by
  induction pattern generalizing f ch with
  | nil => simp [literalPrefix, MWTNode.walk] at hnull
  | cons c cs ih =>
    by_cases hc : c = UNDERSCORE
    · simp [literalPrefix, hc, MWTNode.walk] at hnull
    · have hlp : literalPrefix (c :: cs) = c :: literalPrefix cs := by
        simp [literalPrefix, hc]
      rw [hlp] at hpa hnull
      obtain ⟨hca, hcsa⟩ := overAlphabet_cons hpa
      obtain ⟨i, hi⟩ := symbolIndex_ne_none hca
      simp only [MWTNode.walk, hi] at hnull
      simp only [findHelperUnderscore, hc, if_false, slot_childIndex hca, hi]
      cases hch : ch i with
      | null => rfl
      | node f1 ch1 =>
        rw [hch] at hnull
        exact ih f1 ch1 hcsa hnull

theorem literalPrefix_of_overAlphabet (pattern : List Char) (h : overAlphabet pattern) :
    literalPrefix pattern = pattern := by
  unfold literalPrefix
  rw [List.takeWhile_eq_self_iff]
  intro c hc
  have := h c hc
  simp only [decide_eq_true_eq]
  rintro rfl
  revert this
  decide

theorem walk_null_of_hasPath {t : DictionaryTrie} {p : List Char} (h : t.hasPath p = false) :
    t.root.walk p = .null := by
  unfold DictionaryTrie.hasPath at h
  cases hw : t.root.walk p with
  | null => rfl
  | node f ch => rw [hw] at h; cases h

theorem predictUnderscores_no_path (t : DictionaryTrie) (pattern : List Char) (k : Nat)
    (ht : t.root ≠ .null) (hpa : overAlphabet (literalPrefix pattern))
    (hpath : t.hasPath (literalPrefix pattern) = false) :
    t.predictUnderscores pattern k = .ok [] := by
  obtain ⟨f0, ch0, hr⟩ := root_eq_node ht
  have hnull := walk_null_of_hasPath hpath
  rw [hr] at hnull
  by_cases hguard : k ≤ 0 ∨ pattern.length = 0
  · simp only [DictionaryTrie.predictUnderscores, hguard, if_true]
  · simp only [DictionaryTrie.predictUnderscores, hguard, if_false, hr,
      findHelperUnderscore_no_path pattern f0 ch0 hpa hnull]

/-! ### Claims on `predictUnderscores` -/

/-- C11 (evaluation at failing inputs): with "bb" stored,
`predictUnderscores("_a", 1)` returns "bb", whose second character is not the
'a' of the pattern; with "cabc" stored, `predictUnderscores("c_t", 1)` returns
"abc", which is not a stored word. -/
theorem predictUnderscores_returns_non_matching :
    (build [(['b', 'b'], 1)]).bind (fun t => t.predictUnderscores ['_', 'a'] 1)
      = .ok [['b', 'b']] ∧
    (build [(['c', 'a', 'b', 'c'], 1)]).bind (fun t => t.predictUnderscores ['c', '_', 't'] 1)
      = .ok [['a', 'b', 'c']] ∧
    (build [(['c', 'a', 'b', 'c'], 1)]).bind (fun t => t.find ['a', 'b', 'c']) = .ok false := by
  decide

/-- C12 (evaluation at the failing input): with "cat" stored,
`predictUnderscores("_at", 1)` returns "cat" three times, although the count
is 1 and one stored word matches the pattern. -/
theorem predictUnderscores_repeats_and_exceeds_count :
    (build [(['c', 'a', 't'], 1)]).bind (fun t => t.predictUnderscores ['_', 'a', 't'] 1)
      = .ok [['c', 'a', 't'], ['c', 'a', 't'], ['c', 'a', 't']] := by
  decide

/-- C13 (evaluation at failing inputs): with "a" stored,
`predictUnderscores("__", 1)` throws `std::out_of_range` from `substr`, and
`predictUnderscores("a", 1)` throws it from `at`. -/
theorem predictUnderscores_raises_out_of_range :
    (build [(['a'], 1)]).bind (fun t => t.predictUnderscores ['_', '_'] 1)
      = .error .outOfRange ∧
    (build [(['a'], 1)]).bind (fun t => t.predictUnderscores ['a'] 1)
      = .error .outOfRange := by
  decide

/-- C14 (counterexample): with " ab" stored, the literal prefix "{" of the
pattern "{_" has no path from the root, yet `predictUnderscores("{_", 1)`
returns ["ab"]: '{' is indexed as slot 26, the slot of the space. -/
theorem predictUnderscores_no_path_counterexample :
    (build [([' ', 'a', 'b'], 1)]).map
      (fun t => (t.hasPath (literalPrefix ['{', '_']), t.predictUnderscores ['{', '_'] 1))
      = .ok (false, .ok [['a', 'b']]) := by
  decide

/-- C14 (amended): `predictUnderscores("", k)` is empty for every `k`,
`predictUnderscores(pattern, 0)` is empty for every pattern, and
`predictUnderscores(pattern, k)` is empty whenever the literal prefix of the
pattern before its first wildcard is over the alphabet and has no path from
the root. -/
theorem predictUnderscores_empty_cases (t : DictionaryTrie) (ht : t.root ≠ .null) :
    (∀ k, t.predictUnderscores [] k = .ok []) ∧
    (∀ pattern, t.predictUnderscores pattern 0 = .ok []) ∧
    (∀ pattern k, overAlphabet (literalPrefix pattern) →
      t.hasPath (literalPrefix pattern) = false → t.predictUnderscores pattern k = .ok []) := by
  refine ⟨?_, ?_, ?_⟩
  · intro k; simp [DictionaryTrie.predictUnderscores]
  · intro pattern; simp [DictionaryTrie.predictUnderscores]
  · intro pattern k hpa hpath
    exact predictUnderscores_no_path t pattern k ht hpa hpath

theorem predictUnderscores_empty_cases_witness :
    exampleTrie.predictUnderscores [] 3 = .ok [] ∧
    exampleTrie.predictUnderscores ['c', '_', 't'] 0 = .ok [] ∧
    exampleTrie.hasPath (literalPrefix ['d', 'o', '_']) = false ∧
    exampleTrie.predictUnderscores ['d', 'o', '_'] 4 = .ok [] :=
  ⟨(predictUnderscores_empty_cases exampleTrie (fun h => MWTNode.noConfusion h)).1 3,
   (predictUnderscores_empty_cases exampleTrie (fun h => MWTNode.noConfusion h)).2.1
     ['c', '_', 't'],
   by decide,
   (predictUnderscores_empty_cases exampleTrie (fun h => MWTNode.noConfusion h)).2.2
     ['d', 'o', '_'] 4 (by decide) (by decide)⟩

/-- On a pattern over the alphabet, so without wildcard, whose path exists,
`findHelperUnderscore` walks the whole pattern and then evaluates
`prefix.at(i)` with `i = prefix.size()`, which throws. -/
theorem findHelperUnderscore_past_end (pattern : List Char) (f : Nat) (ch : Fin 27 → MWTNode)
    (hpa : overAlphabet pattern) (hpath : MWTNode.walk pattern (.node f ch) ≠ .null) :
    findHelperUnderscore pattern (.node f ch) = .error .outOfRange := by
  induction pattern generalizing f ch with
  | nil => rfl
  | cons c cs ih =>
    obtain ⟨hca, hcsa⟩ := overAlphabet_cons hpa
    obtain ⟨i, hi⟩ := symbolIndex_ne_none hca
    have hc : c ≠ UNDERSCORE := by
      rintro rfl
      revert hca
      decide
    simp only [MWTNode.walk, hi] at hpath
    simp only [findHelperUnderscore, hc, if_false, slot_childIndex hca, hi]
    cases hch : ch i with
    | null => rw [hch, walk_null] at hpath; exact absurd rfl hpath
    | node f1 ch1 =>
      rw [hch] at hpath
      exact ih f1 ch1 hcsa hpath

/-- A non-empty pattern over the alphabet whose path exists from the root
makes `predictUnderscores` throw `std::out_of_range`, whether or not the
pattern is a stored word. -/
theorem predictUnderscores_no_wildcard_path (t : DictionaryTrie) (pattern : List Char)
    (k : Nat) (hne : pattern ≠ []) (hpa : overAlphabet pattern) (hk : 1 ≤ k)
    (hpath : t.hasPath pattern = true) :
    t.predictUnderscores pattern k = .error .outOfRange := by
  have hwalk : t.root.walk pattern ≠ .null := by
    intro h
    unfold DictionaryTrie.hasPath at hpath
    rw [h] at hpath
    cases hpath
  have ht : t.root ≠ .null := by
    intro h
    rw [h, walk_null] at hwalk
    exact hwalk rfl
  obtain ⟨f0, ch0, hr⟩ := root_eq_node ht
  rw [hr] at hwalk
  have hguard : ¬ (k ≤ 0 ∨ pattern.length = 0) := by
    rintro (h | h)
    · omega
    · exact hne (List.length_eq_zero.mp h)
  simp only [DictionaryTrie.predictUnderscores, hguard, if_false, hr,
    findHelperUnderscore_past_end pattern f0 ch0 hpa hwalk]

/-- A pattern over the alphabet, so without wildcard, is its own literal
prefix, and `predictUnderscores` returns the empty sequence on it when no path
spelling it exists from the root. -/
theorem predictUnderscores_no_wildcard (t : DictionaryTrie) (pattern : List Char) (k : Nat)
    (ht : t.root ≠ .null) (hpa : overAlphabet pattern) (hpath : t.hasPath pattern = false) :
    literalPrefix pattern = pattern ∧ t.predictUnderscores pattern k = .ok [] := by
  have hlp := literalPrefix_of_overAlphabet pattern hpa
  refine ⟨hlp, predictUnderscores_no_path t pattern k ht ?_ ?_⟩
  · rw [hlp]; exact hpa
  · rw [hlp]; exact hpath

/-- C17 (evaluation at the failing input): with "a" stored, `find("a")` is
true and `predictUnderscores("a", 1)` throws `std::out_of_range` instead of
returning ["a"]: `findHelperUnderscore` evaluates `prefix.at(1)` on the
pattern of size 1. On the trie of cat, car and cap, the pattern "ca" is not a
stored word but has a path, and `predictUnderscores("ca", 1)` throws as well
instead of returning the empty sequence. -/
theorem predictUnderscores_no_wildcard_throws :
    (build [(['a'], 1)]).map (fun t => (t.find ['a'], t.predictUnderscores ['a'] 1))
      = .ok (.ok true, .error .outOfRange) ∧
    exampleTrie.find ['c', 'a'] = .ok false ∧
    exampleTrie.predictUnderscores ['c', 'a'] 1 = .error .outOfRange := by
  decide

/-! ### Characters outside the alphabet -/

theorem slot_childIndex_outside (c : Char) (hc : isAlphabetChar c = false) :
    (c = '{' ∧ slot (childIndex c) = some 26) ∨ (c ≠ '{' ∧ slot (childIndex c) = none) := by
  by_cases hb : c = '{'
  · subst hb; exact Or.inl ⟨rfl, by decide⟩
  · right
    refine ⟨hb, ?_⟩
    have hsp : c ≠ ' ' := by rintro rfl; revert hc; decide
    have hr : ¬ (97 ≤ c.toNat ∧ c.toNat ≤ 122) := by
      intro hr
      unfold isAlphabetChar at hc
      simp [hr.1, hr.2] at hc
    have h123 : c.toNat ≠ 123 := by
      intro h
      apply hb
      rw [← Char.ofNat_toNat c, h]
    have ha : ('a'.toNat : Int) = 97 := by decide
    have hnot : ¬ (0 ≤ (c.toNat : Int) - 97 ∧ (c.toNat : Int) - 97 < 27) := by omega
    unfold slot childIndex
    rw [if_neg hsp, ha, dif_neg hnot]

theorem slot_childIndex_brace (c : Char) :
    slot (childIndex (if c = '{' then ' ' else c)) = slot (childIndex c) := by
  by_cases hb : c = '{'
  · subst hb; decide
  · rw [if_neg hb]

theorem insertLoop_braceToSpace (w : List Char) (freq : Nat) (n : MWTNode) :
    insertLoop (braceToSpace w) freq n = insertLoop w freq n := by
  induction w generalizing n with
  | nil => rfl
  | cons c cs ih =>
    cases n with
    | null => rfl
    | node f ch =>
      simp only [braceToSpace, List.map_cons, insertLoop, slot_childIndex_brace]
      cases slot (childIndex c) with
      | none => rfl
      | some i =>
        simp only
        cases ch i with
        | null =>
          have := ih MWTNode.new
          simp only [braceToSpace] at this
          simp only [this]
        | node f1 ch1 =>
          have := ih (.node f1 ch1)
          simp only [braceToSpace] at this
          simp only [this]

theorem findLoop_braceToSpace (w : List Char) (n : MWTNode) :
    findLoop (braceToSpace w) n = findLoop w n := by
  induction w generalizing n with
  | nil => rfl
  | cons c cs ih =>
    cases n with
    | null => rfl
    | node f ch =>
      simp only [braceToSpace, List.map_cons, findLoop, slot_childIndex_brace]
      cases slot (childIndex c) with
      | none => rfl
      | some i =>
        simp only
        cases ch i with
        | null => rfl
        | node f1 ch1 =>
          have := ih (.node f1 ch1)
          simp only [braceToSpace] at this
          simp only [this]

theorem insertLoop_outside (w : List Char) (freq f : Nat) (ch : Fin 27 → MWTNode)
    (h : ∃ c ∈ w, slot (childIndex c) = none) :
    insertLoop w freq (.node f ch) = .error .undefinedBehaviour := by
  induction w generalizing f ch with
  | nil => obtain ⟨c, hc, _⟩ := h; cases hc
  | cons c cs ih =>
    simp only [insertLoop]
    cases hs : slot (childIndex c) with
    | none => rfl
    | some i =>
      have hcs : ∃ d ∈ cs, slot (childIndex d) = none := by
        obtain ⟨d, hd, hdn⟩ := h
        rcases List.mem_cons.mp hd with rfl | hd
        · rw [hs] at hdn; cases hdn
        · exact ⟨d, hd, hdn⟩
      simp only
      cases hch : ch i with
      | null =>
        simp only [MWTNode.new, ih 0 (fun _ => .null) hcs]
      | node f1 ch1 =>
        simp only [ih f1 ch1 hcs]

theorem findLoop_no_path (p s : List Char) (f : Nat) (ch : Fin 27 → MWTNode)
    (hpa : overAlphabet p) (hnull : MWTNode.walk p (.node f ch) = .null) :
    findLoop (p ++ s) (.node f ch) = .ok false ∧
    findHelper (p ++ s) (.node f ch) = .ok .null := by
  induction p generalizing f ch with
  | nil => simp [MWTNode.walk] at hnull
  | cons c cs ih =>
    obtain ⟨hca, hcsa⟩ := overAlphabet_cons hpa
    obtain ⟨i, hi⟩ := symbolIndex_ne_none hca
    simp only [MWTNode.walk, hi] at hnull
    simp only [List.cons_append, findLoop, findHelper, slot_childIndex hca, hi]
    cases hch : ch i with
    | null => exact ⟨rfl, rfl⟩
    | node f1 ch1 =>
      rw [hch] at hnull
      exact ih f1 ch1 hcsa hnull

/-- C15 (counterexample): on the empty trie `insert("{", 1)` returns true and
`find(" ")` is then true, so '{' has reached the slot of the space; and
`find("A")` indexes `children[-32]`, outside 0..26. -/
theorem out_of_alphabet_counterexample :
    (DictionaryTrie.empty.insert ['{'] 1).map (fun r => (r.1, r.2.find [' ']))
      = .ok (true, .ok true) ∧
    childIndex 'A' = -32 ∧
    DictionaryTrie.empty.find ['A'] = .error .undefinedBehaviour ∧
    (DictionaryTrie.empty.insert ['A'] 1).map (fun r => r.1) = .error .undefinedBehaviour := by
  decide

/-- C15 (amended): characters outside the alphabet are not validated. The child
index of such a character is 26, the slot of the space, for '{', and lies
outside 0..26 for every other one. `insert` and `find` treat '{' as a space;
`insert` on a word with a character indexed outside 0..26 accesses
`children` out of bounds instead of returning false; `find` returns false and
`predictCompletions` returns the empty sequence when an alphabet prefix of
the word has no path from the root, the walk stopping before the character. -/
theorem out_of_alphabet_behaviour (t : DictionaryTrie) (ht : t.root ≠ .null) :
    (∀ c, isAlphabetChar c = false →
      (c = '{' ∧ slot (childIndex c) = some 26) ∨ (c ≠ '{' ∧ slot (childIndex c) = none)) ∧
    (∀ w f, t.insert (braceToSpace w) f = t.insert w f) ∧
    (∀ w, t.find (braceToSpace w) = t.find w) ∧
    (∀ w f, (∃ c ∈ w, slot (childIndex c) = none) →
      t.insert w f = .error .undefinedBehaviour) ∧
    (∀ p s k, overAlphabet p → t.hasPath p = false →
      t.find (p ++ s) = .ok false ∧ t.predictCompletions (p ++ s) k = .ok []) := by
  obtain ⟨f0, ch0, hr⟩ := root_eq_node ht
  have hnil : ∀ w : List Char, braceToSpace w = [] ↔ w = [] := by
    intro w; simp [braceToSpace]
  refine ⟨slot_childIndex_outside, ?_, ?_, ?_, ?_⟩
  · intro w f
    simp only [DictionaryTrie.insert, hnil, insertLoop_braceToSpace]
  · intro w
    simp only [DictionaryTrie.find, hnil, findLoop_braceToSpace]
  · intro w f h
    have hne : w ≠ [] := by
      rintro rfl
      obtain ⟨c, hc, _⟩ := h
      cases hc
    simp only [DictionaryTrie.insert, hne, if_false, hr, insertLoop_outside w f f0 ch0 h]
  · intro p s k hpa hpath
    have hnull : MWTNode.walk p (.node f0 ch0) = .null := by
      unfold DictionaryTrie.hasPath at hpath
      rw [hr] at hpath
      cases hw : MWTNode.walk p (.node f0 ch0) with
      | null => rfl
      | node f ch => rw [hw] at hpath; cases hpath
    obtain ⟨h1, h2⟩ := findLoop_no_path p s f0 ch0 hpa hnull
    have hne : p ++ s ≠ [] := by
      intro h
      have hp : p = [] := (List.append_eq_nil.mp h).1
      rw [hp] at hnull
      simp [MWTNode.walk] at hnull
    refine ⟨by simp only [DictionaryTrie.find, hne, if_false, hr, h1], ?_⟩
    by_cases hguard : (p ++ s).length = 0 ∨ k ≤ 0
    · simp only [DictionaryTrie.predictCompletions, hguard, if_true]
    · simp only [DictionaryTrie.predictCompletions, hguard, if_false, hr, h2]

theorem out_of_alphabet_behaviour_witness :
    slot (childIndex '{') = some 26 ∧ slot (childIndex 'A') = none ∧
    exampleTrie.insert (braceToSpace ['a', '{']) 1 = exampleTrie.insert ['a', '{'] 1 ∧
    exampleTrie.find (braceToSpace ['a', '{']) = exampleTrie.find ['a', '{'] ∧
    exampleTrie.insert ['c', 'A'] 1 = .error .undefinedBehaviour ∧
    exampleTrie.find (['d'] ++ ['_']) = .ok false ∧
    exampleTrie.predictCompletions (['d'] ++ ['_']) 2 = .ok [] :=
  ⟨by decide, by decide,
   (out_of_alphabet_behaviour exampleTrie (fun h => MWTNode.noConfusion h)).2.1 ['a', '{'] 1,
   (out_of_alphabet_behaviour exampleTrie (fun h => MWTNode.noConfusion h)).2.2.1 ['a', '{'],
   (out_of_alphabet_behaviour exampleTrie (fun h => MWTNode.noConfusion h)).2.2.2.1 ['c', 'A'] 1
     ⟨'A', by decide, by decide⟩,
   ((out_of_alphabet_behaviour exampleTrie (fun h => MWTNode.noConfusion h)).2.2.2.2
     ['d'] ['_'] 2 (by decide) (by decide)).1,
   ((out_of_alphabet_behaviour exampleTrie (fun h => MWTNode.noConfusion h)).2.2.2.2
     ['d'] ['_'] 2 (by decide) (by decide)).2⟩

/-! ### Inserting with frequency 0 -/

theorem popLoop_perm (m : Nat) (pq pq1 : PriorityQueue) (acc : List (List Char))
    (h : List.Perm pq pq1) : popLoop m pq acc = popLoop m pq1 acc := by
  induction m generalizing pq pq1 acc with
  | zero => rfl
  | succ m ih =>
    by_cases hne : pq = []
    · subst hne
      rw [h.nil_eq]
    · have hne1 : pq1 ≠ [] := by
        rintro rfl
        exact hne h.eq_nil
      obtain ⟨a, ha, hmem, hmax⟩ := top_spec pq hne
      obtain ⟨b, hb, hmem1, hmax1⟩ := top_spec pq1 hne1
      have hab : a = b := by
        by_contra hab
        rcases CustomComparator_total hab with h1 | h1
        · rw [hmax b (h.symm.subset hmem1)] at h1; cases h1
        · rw [hmax1 a (h.subset hmem)] at h1; cases h1
      subst hab
      have hpop : List.Perm (PriorityQueue.pop pq) (PriorityQueue.pop pq1) := by
        unfold PriorityQueue.pop
        rw [ha, hb]
        exact (((perm_cons_remove hmem).symm.trans h).trans (perm_cons_remove hmem1)).cons_inv
      simp only [popLoop, ha, hb]
      exact ih _ _ _ hpop

/-- The result of `predictCompletions` in terms of the candidates below the
node of the prefix, for a count that fits in an `int`. -/
theorem predictCompletions_eq_popLoop (t : DictionaryTrie) (p : List Char) (k : Nat)
    (ht : t.root ≠ .null) (hp : p ≠ []) (hpa : overAlphabet p) (hk1 : 1 ≤ k)
    (hk : k < 2 ^ 31) :
    t.predictCompletions p k
      = popLoop (toUInt32 (checkSize (toInt32 k)
          (toInt32 (candidates p (t.root.walk p)).length)))
          (candidates p (t.root.walk p)) [] := by
  obtain ⟨f0, ch0, hr⟩ := root_eq_node ht
  have hfind : findHelper p t.root = .ok (t.root.walk p) := by
    rw [hr]; exact findHelper_eq_walk p f0 ch0 hpa
  cases hcurr : t.root.walk p with
  | null =>
    have hlen : ¬ (p.length = 0 ∨ k ≤ 0) := by
      rintro (h | h)
      · exact hp (List.length_eq_zero.mp h)
      · omega
    rw [hcurr] at hfind
    have hc : candidates p .null = [] := rfl
    rw [hc, List.length_nil, returnSize_eq hk (by decide), Nat.min_zero]
    simp only [DictionaryTrie.predictCompletions, hlen, if_false, hfind, popLoop]
  | node f ch =>
    rw [hcurr] at hfind
    obtain ⟨pq, hperm, hrun⟩ := predictCompletions_node t p k f ch hp (by omega) hfind
    rw [hrun, hperm.length_eq]
    exact popLoop_perm _ _ _ _ hperm

theorem candidates_perm_of_frequency (t t1 : DictionaryTrie) (p : List Char)
    (hfreq : ∀ x, t1.frequency x = t.frequency x) :
    List.Perm (candidates p (t1.root.walk p)) (candidates p (t.root.walk p)) := by
  have hn : ∀ n : MWTNode, (candidates p n).Nodup := fun n =>
    List.Nodup.of_map _ (candidates_keys_nodup p n)
  refine (List.perm_ext_iff_of_nodup (hn _) (hn _)).mpr ?_
  intro x
  rw [mem_candidates, mem_candidates]
  simp only [hfreq]

/-- C16 (counterexample): after `insert("a", 0)` on the empty trie,
`predictCompletions("a", 2^31)` pops an empty priority queue and `find("a_")`
indexes `children[-2]`, whereas on the empty trie the two calls return the
empty sequence and false. -/
theorem insert_zero_counterexample :
    (DictionaryTrie.empty.insert ['a'] 0).map
      (fun r => (r.1, r.2.predictCompletions ['a'] 2147483648, r.2.find ['a', '_']))
      = .ok (true, .error .undefinedBehaviour, .error .undefinedBehaviour) ∧
    DictionaryTrie.empty.predictCompletions ['a'] 2147483648 = .ok [] ∧
    DictionaryTrie.empty.find ['a', '_'] = .ok false := by
  decide

/-- C16 (amended): for a non-empty word `w` over the alphabet that is not
stored, `insert(w, 0)` returns true and the resulting trie gives the same
results as the trie before: `find(x)` for every `x` over the alphabet and
`predictCompletions(p, k)` for every `p` over the alphabet and every
`k < 2^31`; and a later `insert(w, f)` with `f > 0` still returns true. -/
theorem insert_zero_indistinguishable (t : DictionaryTrie) (w : List Char)
    (ht : t.root ≠ .null) (hne : w ≠ []) (hw : overAlphabet w) (hns : ¬ t.stored w) :
    ∃ t1, t.insert w 0 = .ok (true, t1) ∧
      (∀ x, overAlphabet x → t1.find x = t.find x) ∧
      (∀ p k, overAlphabet p → k < 2 ^ 31 →
        t1.predictCompletions p k = t.predictCompletions p k) ∧
      (∀ f, 0 < f → ∃ t2, t1.insert w f = .ok (true, t2)) := by
  have h0 : t.frequency w = 0 := by
    unfold DictionaryTrie.stored at hns
    omega
  obtain ⟨t1, hins, ht1, hspec⟩ := insert_spec t w 0 ht hw
  have hfreq : ∀ x, t1.frequency x = t.frequency x := by
    intro x
    rw [hspec x]
    by_cases hx : x = w ∧ w ≠ [] ∧ t.frequency w = 0
    · rw [if_pos hx, hx.1, h0]
    · rw [if_neg hx]
  refine ⟨t1, ?_, ?_, ?_, ?_⟩
  · rw [hins]; simp [hne, h0]
  · intro x hx
    rw [find_eq t1 x ht1 hx, find_eq t x ht hx, hfreq x]
  · intro p k hpa hk
    by_cases hguard : p.length = 0 ∨ k ≤ 0
    · simp only [DictionaryTrie.predictCompletions, hguard, if_true]
    · have hp : p ≠ [] := fun hp => hguard (Or.inl (by rw [hp]; rfl))
      have hk1 : 1 ≤ k := by
        by_contra hk1
        exact hguard (Or.inr (by omega))
      rw [predictCompletions_eq_popLoop t1 p k ht1 hp hpa hk1 hk,
        predictCompletions_eq_popLoop t p k ht hp hpa hk1 hk]
      have hperm := candidates_perm_of_frequency t t1 p hfreq
      rw [hperm.length_eq]
      exact popLoop_perm _ _ _ _ hperm
  · intro f hf
    obtain ⟨t2, hins2, _, _⟩ := insert_spec t1 w f ht1 hw
    refine ⟨t2, ?_⟩
    rw [hins2, hfreq w]
    simp [hne, h0]

theorem insert_zero_indistinguishable_witness :
    ∃ t1, exampleTrie.insert ['c', 'o', 't'] 0 = .ok (true, t1) ∧
      (∀ x, overAlphabet x → t1.find x = exampleTrie.find x) ∧
      (∀ p k, overAlphabet p → k < 2 ^ 31 →
        t1.predictCompletions p k = exampleTrie.predictCompletions p k) ∧
      (∀ f, 0 < f → ∃ t2, t1.insert ['c', 'o', 't'] f = .ok (true, t2)) :=
  insert_zero_indistinguishable exampleTrie ['c', 'o', 't']
    (fun h => MWTNode.noConfusion h) (by decide) (by decide) (by decide)

/-! ### The root -/

theorem insertLoop_ne_null (w : List Char) (freq : Nat) (n : MWTNode) (b : Bool)
    (n1 : MWTNode) (h : insertLoop w freq n = .ok (b, n1)) :
    n1 ≠ .null ∧ (w ≠ [] → n1.frequency = n.frequency) := by
  cases n with
  | null => cases w <;> simp [insertLoop] at h
  | node f ch =>
    cases w with
    | nil =>
      simp only [insertLoop] at h
      split at h <;> (cases h; exact ⟨by simp, fun hw => absurd rfl hw⟩)
    | cons c cs =>
      simp only [insertLoop] at h
      cases hs : slot (childIndex c) with
      | none => rw [hs] at h; cases h
      | some i =>
        rw [hs] at h
        simp only at h
        split at h
        · cases h
        · cases h
          exact ⟨by simp, fun _ => rfl⟩

theorem insert_root (t t1 : DictionaryTrie) (w : List Char) (freq : Nat) (b : Bool)
    (h : t.insert w freq = .ok (b, t1)) :
    t1.root.frequency = t.root.frequency ∧ (t.root ≠ .null → t1.root ≠ .null) := by
  unfold DictionaryTrie.insert at h
  by_cases hw : w = []
  · rw [if_pos hw] at h
    cases h
    exact ⟨rfl, id⟩
  · rw [if_neg hw] at h
    split at h
    · cases h
    · next b1 r hins =>
      cases h
      obtain ⟨h1, h2⟩ := insertLoop_ne_null w freq t.root b r hins
      exact ⟨h2 hw, fun _ => h1⟩

theorem insertAll_root (ops : List (List Char × Nat)) (t0 t : DictionaryTrie)
    (h : insertAll ops t0 = .ok t) :
    t.root.frequency = t0.root.frequency ∧ (t0.root ≠ .null → t.root ≠ .null) := by
  induction ops generalizing t0 with
  | nil =>
    simp only [insertAll] at h
    cases h
    exact ⟨rfl, id⟩
  | cons op rest ih =>
    obtain ⟨w, f⟩ := op
    simp only [insertAll] at h
    split at h
    · cases h
    · next b t1 hins =>
      obtain ⟨h1, h2⟩ := insert_root t0 t1 w f b hins
      obtain ⟨h3, h4⟩ := ih t1 h
      exact ⟨h3.trans h1, fun hn => h4 (h2 hn)⟩

/-- C18: in every trie reached from the empty trie by a sequence of `insert`
calls, with any words and frequencies, the root exists and its frequency is
0: the root is never a word node. -/
theorem root_frequency_zero (ops : List (List Char × Nat)) (t : DictionaryTrie)
    (h : build ops = .ok t) : t.root.frequency = 0 ∧ t.root ≠ .null := by
  obtain ⟨h1, h2⟩ := insertAll_root ops DictionaryTrie.empty t h
  exact ⟨h1, h2 (by simp [DictionaryTrie.empty, MWTNode.new])⟩

theorem root_frequency_zero_witness :
    build [(['c', 'a', 't'], 5), (['c', 'a', 'r'], 3), (['c', 'a', 'p'], 3)] = .ok exampleTrie ∧
    exampleTrie.root.frequency = 0 ∧ exampleTrie.root ≠ .null :=
  ⟨rfl, root_frequency_zero
    [(['c', 'a', 't'], 5), (['c', 'a', 'r'], 3), (['c', 'a', 'p'], 3)] exampleTrie rfl⟩

/-! ### The comparator and the index map -/

/-- C19: `CustomComparator`, read as "`P1` ranks below `P2`", is a strict
total order on the candidates: it holds exactly when the frequency of `P1` is
smaller, or the frequencies are equal and the string of `P1` is greater; it is
irreflexive and transitive, and of two distinct candidates exactly one ranks
below the other. -/
theorem CustomComparator_strict_total :
    (∀ P1 P2 : List Char × Int,
      CustomComparator P1 P2 = true ↔ (P1.2 < P2.2 ∨ (P1.2 = P2.2 ∧ P1.1 > P2.1))) ∧
    (∀ P : List Char × Int, CustomComparator P P = false) ∧
    (∀ P1 P2 P3 : List Char × Int, CustomComparator P1 P2 = true →
      CustomComparator P2 P3 = true → CustomComparator P1 P3 = true) ∧
    (∀ P1 P2 : List Char × Int, P1 ≠ P2 →
      (CustomComparator P1 P2 = true ∧ CustomComparator P2 P1 = false) ∨
      (CustomComparator P1 P2 = false ∧ CustomComparator P2 P1 = true)) := by
  refine ⟨CustomComparator_iff, CustomComparator_irrefl,
    fun _ _ _ h1 h2 => CustomComparator_trans h1 h2, ?_⟩
  intro P1 P2 hne
  rcases CustomComparator_total hne with h | h
  · exact Or.inl ⟨h, CustomComparator_asymm h⟩
  · exact Or.inr ⟨CustomComparator_asymm h, h⟩

/-- C20: for a character of the alphabet the child index computed by `insert`,
`find` and `findHelper` lies in 0..26, with `a`..`z` on 0..25 and the space on
26; distinct characters of the alphabet have distinct indices; and
`returnChar` is the inverse of the index map on the alphabet and on 0..26. -/
theorem childIndex_alphabet :
    (∀ c, isAlphabetChar c = true → 0 ≤ childIndex c ∧ childIndex c ≤ 26) ∧
    (∀ c, isAlphabetChar c = true → c ≠ ' ' →
      childIndex c = (c.toNat : Int) - 97 ∧ childIndex c ≤ 25) ∧
    childIndex 'a' = 0 ∧ childIndex 'z' = 25 ∧ childIndex ' ' = 26 ∧
    (∀ c d, isAlphabetChar c = true → isAlphabetChar d = true →
      childIndex c = childIndex d → c = d) ∧
    (∀ c, isAlphabetChar c = true → returnChar (childIndex c).toNat = c) ∧
    (∀ i : Nat, i ≤ 26 → isAlphabetChar (returnChar i) = true ∧
      childIndex (returnChar i) = (i : Int)) := by
  have hidx : ∀ c, isAlphabetChar c = true →
      ∃ i : Fin 27, symbolIndex c = some i ∧ childIndex c = (i.val : Int) := by
    intro c hc
    obtain ⟨i, hi⟩ := symbolIndex_ne_none hc
    refine ⟨i, hi, ?_⟩
    have hs := slot_childIndex hc
    rw [hi] at hs
    unfold slot at hs
    split at hs
    · next hr =>
      have := Fin.val_eq_of_eq (Option.some.inj hs)
      simp only at this
      omega
    · cases hs
  have hback : ∀ i : Fin 27, isAlphabetChar (returnChar i.val) = true ∧
      childIndex (returnChar i.val) = (i.val : Int) := by
    decide
  refine ⟨?_, ?_, by decide, by decide, by decide, ?_, ?_, ?_⟩
  · intro c hc
    obtain ⟨i, _, hi⟩ := hidx c hc
    rw [hi]
    have := i.isLt
    omega
  · intro c hc hsp
    have hr : 97 ≤ c.toNat ∧ c.toNat ≤ 122 := by
      unfold isAlphabetChar at hc
      simpa [hsp] using hc
    have ha : ('a'.toNat : Int) = 97 := by decide
    unfold childIndex
    rw [if_neg hsp, ha]
    omega
  · intro c d hc hd hcd
    obtain ⟨i, hi, hci⟩ := hidx c hc
    obtain ⟨j, hj, hdj⟩ := hidx d hd
    have hij : i = j := by
      apply Fin.ext
      rw [hci, hdj] at hcd
      exact_mod_cast hcd
    rw [← returnChar_of_symbolIndex hi, ← returnChar_of_symbolIndex hj, hij]
  · intro c hc
    obtain ⟨i, hi, hci⟩ := hidx c hc
    rw [hci]
    exact returnChar_of_symbolIndex hi
  · intro i hi
    exact hback ⟨i, by omega⟩

end MWT
